import Mathlib

/-!
Verification development for the materialization planner of the readyset
dataflow database (src/readyset-server/src/controller/migrate/materialization/mod.rs)
and the redaction wrappers (src/readyset-util/src/redacted.rs).

The Rust code is shallowly embedded: node indices are `Nat`, hash maps are
association lists with unique keys by construction, hash sets are duplicate-free
lists, and the externally provided path/provenance enumerators
(`keys::replay_paths_for_nonstop`, `keys::provenance_of`) are passed in as
oracle parameters.  `Tag` is a `Nat`.  Rust panics (assert!, unwrap on a
documented invariant) are modelled as error returns.  The word `partial` and
the identifier `have` are reserved here, so the field `partial` is named
`partialNodes` and `have` is named `haveIdx`.
-/

namespace Readyset

/-- Index type of an `Index` (Hash or BTree). -/
inductive IndexType
  | hash
  | btree
deriving DecidableEq, Repr

/-- An index: a pair of an index type and an ordered column list.
Equality is structural, including column order. -/
structure Index where
  index_type : IndexType
  columns : List Nat
deriving DecidableEq, Repr

/-- `Index::hash_map(columns)`. -/
def Index.hashMap (cols : List Nat) : Index := ⟨IndexType.hash, cols⟩

/-- A lookup index: Strict (consulted during replays) or Weak. -/
inductive LookupIndex
  | strict (i : Index)
  | weak (i : Index)
deriving DecidableEq, Repr

/-- `LookupIndex::index()` / `LookupIndex::into_index()`. -/
def LookupIndex.index : LookupIndex → Index
  | .strict i => i
  | .weak i => i

/-- `LookupIndex::is_weak()`. -/
def LookupIndex.isWeak : LookupIndex → Bool
  | .strict _ => false
  | .weak _ => true

/-- One segment of a replay path: a node and an optional index. -/
structure IndexRef where
  node : Nat
  index : Option Index
deriving DecidableEq, Repr

/-- A raw replay path: an ordered segment list (source first, target last)
and the `broken` flag (the path terminates early at generated columns). -/
structure RawReplayPath where
  segments : List IndexRef
  broken : Bool
deriving DecidableEq, Repr

/-- `RawReplayPath::target()`: the last segment (also `last_segment()`). -/
def RawReplayPath.target (p : RawReplayPath) : IndexRef :=
  p.segments.getLastD ⟨0, none⟩

/-- Association-list map keyed by node index.  Keys are unique because
`mset` removes previous bindings of the key. -/
abbrev NMap (α : Type) := List (Nat × α)

/-- Map lookup (`HashMap::get`). -/
def mget {α : Type} (m : NMap α) (k : Nat) : Option α :=
  (m.find? (fun p => p.1 == k)).map Prod.snd

/-- Map lookup with a default value. -/
def mgetD {α : Type} (m : NMap α) (k : Nat) (d : α) : α :=
  (mget m k).getD d

/-- `HashMap::contains_key`. -/
def mcontains {α : Type} (m : NMap α) (k : Nat) : Bool :=
  (mget m k).isSome

/-- Map insert/overwrite (`HashMap::insert` / the result of an `entry` update). -/
def mset {α : Type} (m : NMap α) (k : Nat) (v : α) : NMap α :=
  (k, v) :: m.filter (fun p => p.1 != k)

/-- `HashMap::remove`. -/
def mremove {α : Type} (m : NMap α) (k : Nat) : NMap α :=
  m.filter (fun p => p.1 != k)

/-- `HashMap::keys`. -/
def mkeys {α : Type} (m : NMap α) : List Nat := m.map Prod.fst

/-- `HashSet::insert` for node sets (ignores the returned flag). -/
def nins (s : List Nat) (k : Nat) : List Nat :=
  if k ∈ s then s else s ++ [k]

/-- `HashSet::insert` for index sets, returning whether the element is new
together with the new set (Rust's `insert` returns that `bool`). -/
def idxInsNew (xs : List Index) (i : Index) : Bool × List Index :=
  if i ∈ xs then (false, xs) else (true, xs ++ [i])

/-- `HashSet::insert` for index sets, ignoring the returned flag. -/
def idxIns (xs : List Index) (i : Index) : List Index :=
  (idxInsNew xs i).2

/-- `HashSet::extend` for index sets. -/
def idxUnion (xs ys : List Index) : List Index :=
  ys.foldl idxIns xs

/-- `HashSet::insert` for lookup-index sets, ignoring the returned flag. -/
def idxInsLk (xs : List LookupIndex) (li : LookupIndex) : List LookupIndex :=
  if li ∈ xs then xs else xs ++ [li]

/-- Per-node data consumed from the graph layer (the Node API of §6 of the
spec).  `reader_index` models both `r.index()` and `r.key()` (present iff the
reader is keyed); `reader_materialized` models `r.is_materialized()`.
`suggest` models `suggest_indexes(ni)`; `parent_cols` models
`parent_columns(col)` as a table from a column to its provenance list. -/
structure NodeData where
  is_source : Bool := false
  is_dropped : Bool := false
  is_base : Bool := false
  is_internal : Bool := false
  is_reader : Bool := false
  reader_index : Option Index := none
  reader_materialized : Bool := false
  can_query_through : Bool := false
  requires_full_materialization : Bool := false
  is_shard_merger : Bool := false
  sharded_by_col : Option Nat := none
  num_columns : Nat := 0
  name : String := ""
  purge : Bool := false
  suggest : List (Nat × LookupIndex) := []
  parent_cols : List (Nat × List (Nat × Option Nat)) := []
deriving DecidableEq, Repr

instance : Inhabited NodeData := ⟨{}⟩

/-- The dataflow graph: a node table (index = NodeIndex) and a directed edge
list `(parent, child)`.  Well-formed graphs (`Graph.wf`) carry a topological
numbering: every edge goes from a smaller to a larger index. -/
structure Graph where
  nodes : List NodeData
  edges : List (Nat × Nat)
deriving DecidableEq, Repr

/-- Node attribute access; out-of-range indices give the default node. -/
def Graph.node (g : Graph) (i : Nat) : NodeData := g.nodes.getD i default

/-- Well-formedness: the node numbering is topological and edges stay in
range.  This models the acyclicity of the petgraph dataflow graph. -/
def Graph.wf (g : Graph) : Prop :=
  ∀ e ∈ g.edges, e.1 < e.2 ∧ e.2 < g.nodes.length

instance (g : Graph) : Decidable g.wf := by
  unfold Graph.wf; infer_instance

/-- Incoming neighbors (`neighbors_directed(.., Incoming)`), restricted to
parents with a smaller index.  Under `Graph.wf` this is all parents; the
restriction makes upward recursions structurally terminating. -/
def parentsBelow (g : Graph) (v : Nat) : List Nat :=
  (g.edges.filter (fun e => e.2 == v && decide (e.1 < v))).map Prod.fst

/-- All incoming neighbors, with no index restriction. -/
def parentsOf (g : Graph) (v : Nat) : List Nat :=
  (g.edges.filter (fun e => e.2 == v)).map Prod.fst

/-- Outgoing neighbors (`neighbors_directed(.., Outgoing)`), restricted to
children with a larger, in-range index (all children under `Graph.wf`). -/
def childrenAbove (g : Graph) (v : Nat) : List Nat :=
  (g.edges.filter (fun e => e.1 == v && decide (v < e.2) && decide (e.2 < g.nodes.length))).map Prod.snd

/-- `FrontierStrategy` (None / AllPartial / Readers). -/
inductive FrontierStrategy
  | fsNone
  | fsAll
  | fsReaders
deriving DecidableEq, Repr

/-- Materialization `Config` with the Rust defaults. -/
structure Config where
  packet_filters_enabled : Bool := false
  allow_full_materialization : Bool := false
  allow_straddled_joins : Bool := false
  partial_enabled : Bool := true
  frontier_strategy : FrontierStrategy := FrontierStrategy.fsNone
deriving DecidableEq, Repr

/-- The planner's authoritative record (`struct Materializations`).  The Rust
fields `have` and `partial` are named `haveIdx` and `partialNodes` here. -/
structure Materializations where
  haveIdx : NMap (List Index)
  had : List Nat
  added : NMap (List Index)
  added_weak : NMap (List Index)
  new_readers : List Nat
  paths : NMap (List (Nat × (Index × List Nat)))
  redundant_partial : NMap Nat
  partialNodes : List Nat
  tag_generator : Nat
  config : Config
deriving DecidableEq, Repr

/-- `Materializations::new()`. -/
def initMaterializations : Materializations :=
  { haveIdx := [], had := [], added := [], added_weak := [], new_readers := []
  , paths := [], redundant_partial := [], partialNodes := [], tag_generator := 0
  , config := {} }

instance : Inhabited Materializations := ⟨initMaterializations⟩

/-- Error taxonomy of the planner; payloads are dropped.  Rust panics
(assert!/unwrap) are modelled as dedicated error values. -/
inductive RsError
  | unsupportedFullMat
  | purgeInvariant
  | multiParentQueryThrough
  | unresolvedObligation
  | mapIndicesOnBase
  | obligationsNonempty
  | overlappingIndices
  | purgeAboveNonPurge
  | shardMergerNoParent
  | noMaterializedAncestor
  | aliasedSharding
  | purgeMoveInvariant
  | oldNodeChildren
  | emptyIndexOn
  | readerNotMaterialized
  | indexOnEmptyNonReader
  | basePartialAssert
  | fuelExhausted
deriving DecidableEq, Repr

/-- Fold of a fallible step over a list (the shape of the planner's loops
whose bodies can return an error). -/
def foldE {α β : Type} (f : β → α → Except RsError β) : List α → β → Except RsError β
  | [], b => .ok b
  | a :: l, b =>
    match f b a with
    | .error e => .error e
    | .ok b2 => foldE f l b2

/-- The external replay-path enumerator `keys::replay_paths_for_nonstop`,
supplied as an oracle: graph, target node, columns, index type ↦ paths. -/
abbrev PathOracle := Graph → Nat → List Nat → IndexType → List RawReplayPath

/-- The external provenance enumerator `keys::provenance_of`, as an oracle:
graph, node, columns ↦ provenance paths of `(node, per-column source)` pairs. -/
abbrev ProvOracle := Graph → Nat → List Nat → List (List (Nat × List (Option Nat)))

/-- `Materializations::next_tag`: bump the generator and mint a tag. -/
def next_tag (s : Materializations) : Nat × Materializations :=
  (s.tag_generator + 1, { s with tag_generator := s.tag_generator + 1 })

/-- The right-hand key a replay path is stored under in `paths`:
`(index, segment node list)`. -/
def pathKey (index : Index) (p : RawReplayPath) : Index × List Nat :=
  (index, p.segments.map IndexRef.node)

/-- The `BiHashMap::get_by_right` lookup performed by `tag_for_path`:
find a stored tag for `(index, path)` under the path's target node. -/
def lookupTag (s : Materializations) (index : Index) (p : RawReplayPath) : Option Nat :=
  ((mgetD s.paths p.target.node []).find? (fun e => decide (e.2 = pathKey index p))).map Prod.fst

/-- `Materializations::tag_for_path`: reuse the stored tag for
`(index, path)` if present, otherwise mint a fresh tag.  NOTE: the freshly
minted tag is not recorded in `paths` here. -/
def tag_for_path (s : Materializations) (index : Index) (p : RawReplayPath) :
    Nat × Materializations :=
  match lookupTag s index p with
  | some t => (t, s)
  | none => next_tag s

/-- `MaterializationStatus` (`Not` / `Partial{..}` / `Full`). -/
inductive MaterializationStatus
  | notMaterialized
  | partiallyMaterialized (beyond_materialization_frontier : Bool)
  | fullyMaterialized
deriving DecidableEq, Repr

/-- `Materializations::get_status`. -/
def get_status (s : Materializations) (index : Nat) (node : NodeData) :
    MaterializationStatus :=
  let is_materialized :=
    mcontains s.haveIdx index || (if node.is_reader then node.reader_materialized else false)
  if !is_materialized then MaterializationStatus.notMaterialized
  else if index ∈ s.partialNodes then
    MaterializationStatus.partiallyMaterialized node.purge
  else MaterializationStatus.fullyMaterialized

/-! ### `extend`, phase 1: obligation collection (mod.rs lines 303-349) -/

/-- Process one node of `new` in the obligation-collection loop: readers with
a key are recorded in `new_readers` with a Replay obligation on themselves;
other nodes contribute their `suggest_indexes` as Lookup obligations; a base
node with no obligations gets a synthetic `Lookup(Strict(Hash[0]))`. -/
def collectOne (g : Graph)
    (acc : Materializations × NMap (List LookupIndex) × NMap (List Index)) (ni : Nat) :
    Materializations × NMap (List LookupIndex) × NMap (List Index) :=
  let s := acc.1
  let lk := acc.2.1
  let rp := acc.2.2
  let n := g.node ni
  if n.is_reader then
    match n.reader_index with
    | some index =>
      ({ s with new_readers := nins s.new_readers ni }, lk,
        mset rp ni (idxIns (mgetD rp ni []) index))
    | none => (s, lk, rp)
  else
    let indices := n.suggest
    let indices :=
      if indices.isEmpty && n.is_base then
        [(ni, LookupIndex.strict (Index.hashMap [0]))]
      else indices
    (s, indices.foldl (fun lk pr => mset lk pr.1 (idxInsLk (mgetD lk pr.1 []) pr.2)) lk, rp)

/-- Collect all indexing obligations of the nodes in `new`. -/
def collectLoop (g : Graph) :
    List Nat → Materializations × NMap (List LookupIndex) × NMap (List Index) →
    Materializations × NMap (List LookupIndex) × NMap (List Index)
  | [], acc => acc
  | ni :: rest, acc => collectLoop g rest (collectOne g acc ni)

/-- Collect all indexing obligations of the nodes in `new`, starting from
empty obligation tables. -/
def collectObligations (g : Graph) (new : List Nat) (s : Materializations) :
    Materializations × NMap (List LookupIndex) × NMap (List Index) :=
  collectLoop g new (s, [], [])

/-! ### `extend`, phase 2: lookup-obligation hoisting (mod.rs lines 352-477) -/

/-- `map_lookup_indices`: rewrite each lookup index's columns through the
child's `parent_columns` provenance, keeping the Strict/Weak tag. -/
def map_lookup_indices (n : NodeData) (parent : Nat) (indices : List LookupIndex) :
    Except RsError (List LookupIndex) :=
  indices.mapM (fun li =>
    match (li.index.columns.mapM (fun col =>
        if !n.is_internal then
          if n.is_base then Except.error RsError.mapIndicesOnBase
          else Except.ok col
        else
          match ((mgetD n.parent_cols col []).find? (fun pr => pr.1 == parent)).bind Prod.snd with
          | some c => Except.ok c
          | none => Except.error RsError.unresolvedObligation) :
        Except RsError (List Nat)) with
    | .error e => Except.error e
    | .ok cols =>
      match li with
      | .strict _ => Except.ok (LookupIndex.strict ⟨li.index.index_type, cols⟩)
      | .weak _ => Except.ok (LookupIndex.weak ⟨li.index.index_type, cols⟩))

/-- The hoisting loop: walk up from `mi` while the node is unmaterialized,
internal and query-through, rewriting the indices at each step.  The step
requires exactly one parent (`query_through had more than one ancestor`).
The `fuel` argument makes the upward recursion structural; it is called with
`mi + 1`, which always suffices because each step strictly decreases the node
index, so `fuelExhausted` is unreachable on well-formed graphs. -/
def hoistWalk (g : Graph) (sHave : NMap (List Index)) :
    Nat → Nat → List LookupIndex → Except RsError (Nat × List LookupIndex)
  | 0, _, _ => .error RsError.fuelExhausted
  | fuel + 1, mi, indices =>
    if mcontains sHave mi then .ok (mi, indices)
    else if !((g.node mi).is_internal && (g.node mi).can_query_through) then .ok (mi, indices)
    else
      match parentsBelow g mi with
      | [parent] =>
        match map_lookup_indices (g.node mi) parent indices with
        | .error e => .error e
        | .ok indices2 => hoistWalk g sHave fuel parent indices2
      | _ => .error RsError.multiParentQueryThrough

/-- Deposit hoisted lookup indices at the stopping node `mi` (mod.rs lines
442-476): weak indexes are recorded in `added_weak`; a newly added index is
inserted into `have` and enqueued as a Replay obligation. -/
def depositOne (mi : Nat) (acc : Materializations × NMap (List Index)) (li : LookupIndex) :
    Materializations × NMap (List Index) :=
  let s := acc.1
  let rp := acc.2
  let s :=
    if li.isWeak then
      { s with added_weak := mset s.added_weak mi (idxIns (mgetD s.added_weak mi []) li.index) }
    else s
  let pr := idxInsNew (mgetD s.added mi []) li.index
  let s := { s with added := mset s.added mi pr.2 }
  if pr.1 then
    ({ s with haveIdx := mset s.haveIdx mi (idxIns (mgetD s.haveIdx mi []) li.index) },
      mset rp mi (idxIns (mgetD rp mi []) li.index))
  else (s, rp)

/-- Deposit a list of hoisted lookup indices at the stopping node `mi`. -/
def depositLookups (acc : Materializations × NMap (List Index)) (mi : Nat) :
    List LookupIndex → Materializations × NMap (List Index)
  | [] => acc
  | li :: rest => depositLookups (depositOne mi acc li) mi rest

/-- Hoist every collected lookup obligation and deposit it, enqueueing replay
obligations for the newly created indices. -/
def hoistAll (g : Graph) (lk : NMap (List LookupIndex))
    (acc : Materializations × NMap (List Index)) :
    Except RsError (Materializations × NMap (List Index)) :=
  foldE (fun acc pr =>
    match hoistWalk g acc.1.haveIdx (pr.1 + 1) pr.1 pr.2 with
    | .error e => .error e
    | .ok res => .ok (depositLookups acc res.1 res.2)) lk acc

/-! ### `extend`, phase 3: the reverse-topological partiality pass
(mod.rs lines 479-688) -/

/-- The literal name prefixes with protocol meaning. -/
def fullMark : String := "FULL_"

/-- The literal `SHALLOW_` prefix. -/
def shallowMark : String := "SHALLOW_"

/-- Name-prefix test on the underlying character lists (semantically
`str::starts_with`). -/
def strStarts (s p : String) : Bool := List.isPrefixOf p.data s.data

/-- Is `c` a keyed reader (`as_reader().and_then(|r| r.key()).is_some()`)? -/
def keyedReader (g : Graph) (c : Nat) : Bool :=
  (g.node c).is_reader && (g.node c).reader_index.isSome

/-- Does the child `c` clear partial eligibility in the descendant walk?
It does if its name starts with `FULL_`, or it is a materialized non-partial
node, or a keyed reader that is not partial. -/
def nodeBad (g : Graph) (s : Materializations) (c : Nat) : Bool :=
  strStarts (g.node c).name fullMark
  || (mcontains s.haveIdx c && !(s.partialNodes.contains c))
  || (keyedReader g c && !(s.partialNodes.contains c))

/-- The "do we have a full materialization below us?" stack walk (mod.rs lines
538-571), expressed as the predicate the walk computes: is there, below `v`,
a node reachable through non-materialized non-keyed-reader intermediates that
clears eligibility?  (The imperative walk clears `able` and prunes the stack;
since `able` never becomes true again, its net effect is exactly this
existential.)  The structural `fuel` argument is called with
`g.nodes.length + 1`, which always suffices: child indices strictly increase
and stay below `g.nodes.length`. -/
def existsBadBelow (g : Graph) (s : Materializations) : Nat → Nat → Bool
  | 0, _ => false
  | fuel + 1, v =>
    (childrenAbove g v).any (fun c =>
      nodeBad g s c
      || (!(mcontains s.haveIdx c) && !(keyedReader g c) && existsBadBelow g s fuel c))

/-- Initial partial eligibility of `ni` (mod.rs lines 515-571): enabled by
config, cleared for bases, full-required internals, pre-existing full
materializations not being fully re-declared, and bad descendants. -/
def ableInit (g : Graph) (new : List Nat) (s : Materializations) (ni : Nat) : Bool :=
  s.config.partial_enabled
  && !(g.node ni).is_base
  && !((g.node ni).is_internal && (g.node ni).requires_full_materialization)
  && !(!(new.contains ni)
       && ((mgetD s.added ni []).length != (mgetD s.haveIdx ni []).length)
       && !(s.partialNodes.contains ni))
  && !(existsBadBelow g s (g.nodes.length + 1) ni)

/-- Mutable state of the per-node path walk: eligibility, pending index
additions for ancestors, the (possibly force-extended) `have` map, and the
`break 'paths` flag. -/
structure PassAcc where
  able : Bool
  stopAll : Bool
  add : NMap (List Index)
  haveIdx : NMap (List Index)
deriving DecidableEq, Repr

/-- Walk the (reversed, enumerated, skipped) segments of one replay path
(mod.rs lines 604-641).  `plen` is the segment count of the path;
`isBroken` its broken flag.  A segment with no index forces full and breaks
all paths; a segment at a materialized node enqueues a missing index and
breaks this path; the tail segment of a broken path forces materialization. -/
def walkSegs (plen : Nat) (isBroken : Bool) : List (Nat × IndexRef) → PassAcc → PassAcc
  | [], st => st
  | item :: rest, st =>
    match item.2.index with
    | none => { st with able := false, stopAll := true }
    | some index =>
      match mget st.haveIdx item.2.node with
      | some m =>
        if index ∈ m then st
        else { st with add := mset st.add item.2.node (idxIns (mgetD st.add item.2.node []) index) }
      | none =>
        if item.1 == plen - 1 && isBroken then
          let st := { st with haveIdx := mset st.haveIdx item.2.node [] }
          let st := { st with add := mset st.add item.2.node (idxIns (mgetD st.add item.2.node []) index) }
          walkSegs plen isBroken rest st
        else walkSegs plen isBroken rest st

/-- Walk all replay paths of a node, stopping once a path requested a full
replay (`break 'paths`).  Each path's segments are iterated in reverse with
absolute positions, skipping the target segment iff the target is `ni`. -/
def walkPaths (ni : Nat) : List RawReplayPath → PassAcc → PassAcc
  | [], st => st
  | p :: rest, st =>
    if st.stopAll then st
    else
      let nskip := if p.target.node == ni then 1 else 0
      let st := walkSegs p.segments.length p.broken (p.segments.reverse.enum.drop nskip) st
      walkPaths ni rest st

/-- The "no matter what happens, fulfill the replay obligations" loop
(mod.rs lines 666-686): if `ni` is materialized, insert every obligation
index into `have[ni]`, recording it in `added[ni]` when it is new, or when
`ni` is partial, or during recovery. -/
def haveIns (isRecovery : Bool) (ni : Nat) : List Index → Materializations → Materializations
  | [], s => s
  | index :: rest, s =>
    let pr := idxInsNew (mgetD s.haveIdx ni []) index
    let s1 := { s with haveIdx := mset s.haveIdx ni pr.2 }
    let s2 :=
      if pr.1 || s1.partialNodes.contains ni || isRecovery then
        { s1 with added := mset s1.added ni (idxIns (mgetD s1.added ni []) index) }
      else s1
    haveIns isRecovery ni rest s2

/-- Entry point of the obligation-fulfilment loop: a no-op when `ni` is not
materialized. -/
def haveLoop (isRecovery : Bool) (s : Materializations) (ni : Nat) (indexes : List Index) :
    Materializations :=
  match mget s.haveIdx ni with
  | none => s
  | some _ => haveIns isRecovery ni indexes s

/-- Enumerate the replay paths of every obligation index of a node
(mod.rs lines 573-585). -/
def gatherPaths (oracle : PathOracle) (g : Graph) (ni : Nat) :
    List Index → List RawReplayPath
  | [] => []
  | index :: rest =>
    oracle g ni index.columns index.index_type ++ gatherPaths oracle g ni rest

/-- Fold the per-ancestor index additions accumulated by the path walk back
into the replay-obligation table (`replay_obligations.entry(mi).or_default()
.extend(indices)`). -/
def addFold : NMap (List Index) → NMap (List Index) → NMap (List Index)
  | [], rp => rp
  | pr :: rest, rp => addFold rest (mset rp pr.1 (idxUnion (mgetD rp pr.1 []) pr.2))

/-- One iteration of the reverse-topological pass for node `ni` (mod.rs lines
505-687).  Broken paths are processed first (`sort_unstable_by_key(!broken)`
is modelled as a stable broken-first partition). -/
def passStep (g : Graph) (new : List Nat) (isRecovery : Bool) (oracle : PathOracle)
    (acc : Materializations × NMap (List Index)) (ni : Nat) :
    Except RsError (Materializations × NMap (List Index)) :=
  match mget acc.2 ni with
  | none => .ok acc
  | some indexes =>
    let s := acc.1
    let rp := mremove acc.2 ni
    let pathsAll := gatherPaths oracle g ni indexes
    let pathsSorted := pathsAll.filter (fun p => p.broken) ++ pathsAll.filter (fun p => !p.broken)
    let w := walkPaths ni pathsSorted
      { able := ableInit g new s ni, stopAll := false, add := [], haveIdx := s.haveIdx }
    let s := { s with haveIdx := w.haveIdx }
    if w.able then
      let s := { s with partialNodes := nins s.partialNodes ni }
      let rp := addFold w.add rp
      .ok (haveLoop isRecovery s ni indexes, rp)
    else if !(g.node ni).is_base && !s.config.allow_full_materialization then
      .error RsError.unsupportedFullMat
    else if (g.node ni).purge then .error RsError.purgeInvariant
    else .ok (haveLoop isRecovery s ni indexes, rp)

/-- The reverse topological order the pass walks: all non-source non-dropped
nodes, children before ancestors (under the topological numbering of
`Graph.wf`, descending indices). -/
def orderedNodes (g : Graph) : List Nat :=
  ((List.range g.nodes.length).filter
    (fun v => !(g.node v).is_source && !(g.node v).is_dropped)).reverse

/-- The full reverse-topological partiality pass. -/
def partialityPass (g : Graph) (new : List Nat) (isRecovery : Bool) (oracle : PathOracle)
    (s : Materializations) (rp : NMap (List Index)) :
    Except RsError (Materializations × NMap (List Index)) :=
  foldE (passStep g new isRecovery oracle) (orderedNodes g) (s, rp)

/-! ### `extend`, phases 4-5: frontier labeling and purge propagation
(mod.rs lines 690-742) -/

/-- Set the `purge` flag of node `ni`. -/
def setPurge (g : Graph) (ni : Nat) (b : Bool) : Graph :=
  { g with nodes := g.nodes.set ni { g.node ni with purge := b } }

/-- Frontier labeling of one new node (mod.rs lines 691-715): full
materializations are skipped; `SHALLOW_`-named nodes are purged
unconditionally; otherwise only partial nodes are labelled per strategy. -/
def frontierStep (s : Materializations) (g : Graph) (ni : Nat) : Graph :=
  let n := g.node ni
  if (mcontains s.haveIdx ni || n.is_reader) && !(s.partialNodes.contains ni) then g
  else if strStarts n.name shallowMark then setPurge g ni true
  else if !(s.partialNodes.contains ni) then g
  else
    match s.config.frontier_strategy with
    | .fsAll => setPurge g ni true
    | .fsReaders => setPurge g ni (n.purge || n.is_reader)
    | .fsNone => g

/-- The frontier-labeling loop over the nodes of `new`. -/
def frontierLoop (s : Materializations) : List Nat → Graph → Graph
  | [], g => g
  | ni :: rest, g => frontierLoop s rest (frontierStep s g ni)

/-- Purge propagation for one new node (mod.rs lines 717-742): a purged node
without state moves its label to its stateful parents in `new`, which must be
partial. -/
def purgeMoveStep (s : Materializations) (new : List Nat) (g : Graph) (ni : Nat) :
    Except RsError Graph :=
  if (g.node ni).purge && !(mcontains s.haveIdx ni || (g.node ni).is_reader) then
    foldE (fun g pi =>
      if !(new.contains pi) then .ok g
      else if !(mcontains s.haveIdx pi) then .ok g
      else if !(s.partialNodes.contains pi) then .error RsError.purgeMoveInvariant
      else .ok (setPurge g pi true)) (parentsOf g ni) g
  else .ok g

/-- `Materializations::extend` (mod.rs lines 257-745): collect obligations,
hoist lookups, run the partiality pass, assert the obligation table is
drained, then label the frontier.  The final `assert!` is modelled as the
error `obligationsNonempty`. -/
def extend (oracle : PathOracle) (g : Graph) (new : List Nat) (isRecovery : Bool)
    (s : Materializations) : Except RsError (Materializations × Graph) :=
  let c := collectObligations g new s
  match hoistAll g c.2.1 (c.1, c.2.2) with
  | .error e => .error e
  | .ok acc =>
    match partialityPass g new isRecovery oracle acc.1 acc.2 with
    | .error e => .error e
    | .ok acc2 =>
      if !acc2.2.isEmpty then .error RsError.obligationsNonempty
      else
        let g2 := frontierLoop acc2.1 new g
        match foldE (purgeMoveStep acc2.1 new) new g2 with
        | .error e => .error e
        | .ok g3 => .ok (acc2.1, g3)

/-! ### `validate` (mod.rs lines 789-1044) -/

/-- The edge `validate` reports when a full materialization sits below a
partial one. -/
structure InvalidEdge where
  parent : Nat
  child : Nat
deriving DecidableEq, Repr

/-- The recursive ancestor scan `any_partial` (mod.rs lines 799-815): returns
`(some p, none)` when the node itself is partial, `(some p, some c)` when a
partial ancestor `p` with non-partial successor `c` was found above, and
`(none, none)` otherwise. -/
def findPartialAbove (s : Materializations) (g : Graph) :
    Nat → Nat → Option Nat × Option Nat
  | 0, _ => (none, none)
  | fuel + 1, v =>
    if v ∈ s.partialNodes then (some v, none)
    else
      match ((parentsBelow g v).map (fun pi => (pi, findPartialAbove s g fuel pi))).find?
          (fun r => r.2.1.isSome) with
      | some (_, (some p, some c)) => (some p, some c)
      | some (_, (some p, none)) => (some p, some v)
      | _ => (none, none)

/-- The first check of `validate` (mod.rs lines 817-824): scan
`added.keys() ++ new_readers` for a node with a partial ancestor. -/
def validateFirstBlock (s : Materializations) (g : Graph) : Option InvalidEdge :=
  (mkeys s.added ++ s.new_readers).findSome? (fun ni =>
    match findPartialAbove s g (ni + 1) ni with
    | (some p, some c) => some ⟨p, c⟩
    | _ => none)

/-- Does the partial-subset check fail at segment node `node` for the child
index `child_index` (mod.rs lines 852-931)?  It fails iff the parent lacks
the child's exact index while some parent index of the same type shares a
column with it but is not column-equal. -/
def overlapErrAtNode (s : Materializations) (node : Nat) (child_index : Index) : Bool :=
  let hn := mgetD s.haveIdx node []
  !(hn.contains child_index) && hn.any (fun parent_index =>
    parent_index.index_type == child_index.index_type
    && parent_index.columns.any (fun c => child_index.columns.contains c)
    && (parent_index.columns.any (fun c => !(child_index.columns.contains c))
        || child_index.columns.any (fun c => !(parent_index.columns.contains c))))

/-- Walk the reversed segments of one replay path in the overlap check
(mod.rs lines 846-936).  `ni` is the added node whose paths are checked; the
`mcontains … ni` break is the (outer-variable) condition the source uses. -/
def overlapWalkSegs (s : Materializations) (ni : Nat) :
    List IndexRef → Except RsError Unit
  | [] => .ok ()
  | ref :: rest =>
    match ref.index with
    | none => .ok ()
    | some child_index =>
      if ref.node ∈ s.partialNodes then
        if overlapErrAtNode s ref.node child_index then .error RsError.overlappingIndices
        else overlapWalkSegs s ni rest
      else if mcontains s.haveIdx ni then .ok ()
      else overlapWalkSegs s ni rest

/-- The partial-subset overlap check over every added index of every partial
node (mod.rs lines 829-940). -/
def overlapCheck (oracle : PathOracle) (g : Graph) (s : Materializations) :
    Except RsError Unit :=
  foldE (fun _ pr =>
    if !(s.partialNodes.contains pr.1) then .ok ()
    else
      foldE (fun _ index =>
        foldE (fun _ path => overlapWalkSegs s pr.1 path.segments.reverse)
          (oracle g pr.1 index.columns index.index_type) ())
        pr.2 ()) s.added ()

/-- The upward walk of the purge-frontier check (mod.rs lines 951-974),
expressed as the predicate the stack loop computes: starting at `v`, is a
purged node reachable through non-materialized intermediates? -/
def purgeBadAt (s : Materializations) (g : Graph) : Nat → Nat → Bool
  | 0, _ => false
  | fuel + 1, v =>
    (g.node v).purge
    || (!(mcontains s.haveIdx v)
        && (parentsBelow g v).any (fun pi => purgeBadAt s g fuel pi))

/-- The purge-frontier check (mod.rs lines 942-975): seeded from the parents
of every new stateful non-purged node. -/
def purgeCheck (s : Materializations) (g : Graph) (new : List Nat) :
    Except RsError Unit :=
  if new.any (fun ni =>
      ((g.node ni).is_reader || mcontains s.haveIdx ni) && !(g.node ni).purge
      && (parentsOf g ni).any (fun pi => purgeBadAt s g (pi + 1) pi)) then
    .error RsError.purgeAboveNonPurge
  else .ok ()

/-- The aliased-sharding check for one new node (mod.rs lines 985-1040). -/
def shardStep (prov : ProvOracle) (g : Graph) (s : Materializations) (node : Nat) :
    Except RsError Unit :=
  let n := g.node node
  if !n.is_shard_merger then .ok ()
  else
    match (parentsOf g node).head? with
    | none => .error RsError.shardMergerNoParent
    | some parent =>
      match (g.node parent).sharded_by_col with
      | none => .ok ()
      | some col =>
        foldE (fun _ path =>
          match path.find? (fun pr => mcontains s.haveIdx pr.1) with
          | none => .error RsError.noMaterializedAncestor
          | some mat =>
            let src := mat.2.getD col none
            if src.isNone then .ok ()
            else if mat.2.enum.any (fun pr => decide (pr.1 ≠ col) && pr.2 == src) then
              .error RsError.aliasedSharding
            else .ok ())
          (prov g parent (List.range n.num_columns)) ()

/-- `Materializations::validate`: the full-below-partial scan returns an
`InvalidEdge` early; then the overlap, purge-frontier and aliased-sharding
checks run, each able to fail with an internal error. -/
def validate (oracle : PathOracle) (prov : ProvOracle) (g : Graph)
    (s : Materializations) (new : List Nat) :
    Except RsError (Option InvalidEdge) :=
  match validateFirstBlock s g with
  | some e => .ok (some e)
  | none =>
    match overlapCheck oracle g s with
    | .error e => .error e
    | .ok _ =>
      match purgeCheck s g new with
      | .error e => .error e
      | .ok _ =>
        match foldE (fun _ node => shardStep prov g s node) new () with
        | .error e => .error e
        | .ok _ => .ok none

/-! ### `commit` (mod.rs lines 1051-1368)

Domain messages (`Ready`, `IsReady`, `StartReplay`, `QueryReplayDone`) are
emitted to the DomainMigrationPlan and never read back by the planner state,
so their emission is not modelled; only the state mutations of `commit`,
`ready_one` and `setup` are. -/

/-- The child walk in the reindex phase of `commit` (mod.rs lines 1110-1145),
as the predicate the stack loop computes: is there, below the node, a
non-new descendant reachable through non-new intermediates whose `added` and
`have` sizes differ (i.e., a previously materialized child)? -/
def oldChildBad (s : Materializations) (g : Graph) (new : List Nat) :
    Nat → Nat → Bool
  | 0, _ => false
  | fuel + 1, v =>
    !(new.contains v)
    && (((mgetD s.added v []).length != (mgetD s.haveIdx v []).length)
        || (childrenAbove g v).any (fun c => oldChildBad s g new fuel c))

/-- Tag every replay path of one index, accumulating `(Tag, (Index, nodes))`
entries while threading the tag generator. -/
def setupTagPaths (index : Index) :
    List RawReplayPath → List (Nat × (Index × List Nat)) × Materializations →
    List (Nat × (Index × List Nat)) × Materializations
  | [], acc => acc
  | path :: rest, acc =>
    let tr := tag_for_path acc.2 index path
    setupTagPaths index rest
      (acc.1 ++ [(tr.1, (index, path.segments.map IndexRef.node))], tr.2)

/-- Tag the replay paths of every index of `index_on`. -/
def setupTagIdx (oracle : PathOracle) (g : Graph) (ni : Nat) :
    List Index → List (Nat × (Index × List Nat)) × Materializations →
    List (Nat × (Index × List Nat)) × Materializations
  | [], acc => acc
  | index :: rest, acc =>
    setupTagIdx oracle g ni rest
      (setupTagPaths index (oracle g ni index.columns index.index_type) acc)

/-- `Materializations::setup` (mod.rs lines 1289-1368): the part in mod.rs
recovers the reader's key when `index_on` is empty; the replay planning that
follows lives in `plan.rs`, which is not part of the sources at hand.
Modelled from the spec: `plan::Plan` — for each index, each replay path from
the enumerator is assigned a Tag via `tag_for_path` (minting from
`tag_generator` on a miss), and the `(Tag, (Index, node list))` entries are
merged into `paths[ni]`; the pending replay messages are external effects. -/
def setupGetIdx (g : Graph) (ni : Nat) (index_on : List Index) :
    Except RsError (List Index) :=
  if index_on.isEmpty then
    if (g.node ni).is_reader then
      if !(g.node ni).reader_materialized then .error RsError.readerNotMaterialized
      else
        match (g.node ni).reader_index with
        | some i => .ok [i]
        | none => .ok []
    else .error RsError.indexOnEmptyNonReader
  else .ok index_on

/-- The state effect of `setup`: recover the key set, tag all replay paths,
and merge the tagged entries into `paths[ni]`. -/
def setupModel (oracle : PathOracle) (g : Graph) (s : Materializations) (ni : Nat)
    (index_on : List Index) : Except RsError Materializations :=
  match setupGetIdx g ni index_on with
  | .error e => .error e
  | .ok index_on =>
    let res := setupTagIdx oracle g ni index_on ([], s)
    .ok { res.2 with paths := mset res.2.paths ni ((mgetD res.2.paths ni []) ++ res.1) }

/-- `Materializations::ready_one` (mod.rs lines 1232-1286): bases need no
replay (and must not be partial); stateless nodes are skipped; stateful ones
are reconstructed through `setup`. -/
def readyOne (oracle : PathOracle) (g : Graph) (s : Materializations) (ni : Nat)
    (index_on : List Index) : Except RsError Materializations :=
  if (g.node ni).is_base then
    if s.partialNodes.contains ni then .error RsError.basePartialAssert else .ok s
  else
    let has_state := !index_on.isEmpty
      || ((g.node ni).is_reader && (g.node ni).reader_materialized)
    if !has_state then .ok s
    else setupModel oracle g s ni index_on

/-- One step of the reindex phase of `commit` (mod.rs lines 1083-1174):
drain the node's `added` entry, validate the no-materialized-children
condition for newly materialized partial nodes, then `setup`. -/
def commitReindexStep (oracle : PathOracle) (g : Graph) (new : List Nat)
    (s : Materializations) (node : Nat) : Except RsError Materializations :=
  let index_on := mgetD s.added node []
  let s := { s with added := mremove s.added node }
  if !(s.had.contains node) && !index_on.isEmpty
      && s.partialNodes.contains node
      && (childrenAbove g node).any (fun c => oldChildBad s g new (g.nodes.length + 1) c) then
    .error RsError.oldNodeChildren
  else setupModel oracle g s node index_on

/-- One step of the make phase of `commit` (mod.rs lines 1177-1216): drain
the node's `added` entry (which must be nonempty when present) and ready the
node; the `Ready` message is an external effect. -/
def commitMakeStep (oracle : PathOracle) (g : Graph) (s : Materializations) (ni : Nat) :
    Except RsError Materializations :=
  match mget s.added ni with
  | some idxs =>
    let s := { s with added := mremove s.added ni }
    if idxs.isEmpty then .error RsError.emptyIndexOn
    else readyOne oracle g s ni idxs
  | none => readyOne oracle g s ni []

/-- The topological order `commit` walks (non-source, non-dropped nodes;
ascending indices under the numbering of `Graph.wf`). -/
def topoNonDropped (g : Graph) : List Nat :=
  (List.range g.nodes.length).filter
    (fun v => !(g.node v).is_source && !(g.node v).is_dropped)

/-- `Materializations::commit`: reindex existing nodes, make new ones, then
clear `added` and `new_readers` and fold `have.keys()` into `had`.
(`added_weak` is not touched here.) -/
def commit (oracle : PathOracle) (g : Graph) (new : List Nat) (s : Materializations) :
    Except RsError Materializations :=
  let order := topoNonDropped g
  let make := order.filter (fun v => new.contains v)
  let reindex := order.filter (fun v => !(new.contains v) && mcontains s.added v)
  match foldE (commitReindexStep oracle g new) reindex s with
  | .error e => .error e
  | .ok s =>
    match foldE (commitMakeStep oracle g) make s with
    | .error e => .error e
    | .ok s =>
      .ok { s with added := [], new_readers := [],
                   had := s.haveIdx.foldl (fun had pr => nins had pr.1) s.had }

/-! ### The redaction wrappers (src/readyset-util/src/redacted.rs)

The `redact_sensitive` cargo feature is a compile-time flag; it is modelled
as the boolean parameter `redact`.  `Display`/`Debug` of the wrapped value
are modelled as function parameters. -/

/-- The constant the wrappers print when redaction is on. -/
def redactedLabel : String := "<redacted>"

/-- `Display for Sensitive<'_, T>`. -/
def sensitiveDisplay {T : Type} (redact : Bool) (displayT : T → String) (x : T) : String :=
  if redact then redactedLabel else displayT x

/-- `Debug for Sensitive<'_, T>`. -/
def sensitiveDebug {T : Type} (redact : Bool) (debugT : T → String) (x : T) : String :=
  if redact then redactedLabel else debugT x

/-- `Display for RedactedString` (Display of a `String` is itself). -/
def redactedStringDisplay (redact : Bool) (x : String) : String :=
  if redact then redactedLabel else x

/-- `Debug for RedactedString`; `debugString` models `{:?}` of `String`. -/
def redactedStringDebug (redact : Bool) (debugString : String → String) (x : String) : String :=
  if redact then redactedLabel else debugString x

/-! ### Concrete instances used by counterexamples and witnesses -/

/-- `Hash[0]`. -/
def hash0 : Index := Index.hashMap [0]

/-- `Hash[2]`. -/
def hash2 : Index := Index.hashMap [2]

/-- A three-node graph: 0 = the graph source, 1 = a base table,
2 = a materialized reader keyed on column 0. -/
def g1 : Graph :=
  { nodes :=
      [ { is_source := true }
      , { is_base := true }
      , { is_reader := true, reader_index := some hash0, reader_materialized := true } ]
  , edges := [(0, 1), (1, 2)] }

/-- Replay paths of `g1`: the reader's key column traces to the base. -/
def oracle1 : PathOracle := fun _ ni cols ty =>
  if ni = 2 ∧ cols = [0] ∧ ty = IndexType.hash then
    [⟨[⟨1, some hash0⟩, ⟨2, some hash0⟩], false⟩]
  else if ni = 1 ∧ cols = [0] ∧ ty = IndexType.hash then
    [⟨[⟨1, some hash0⟩], false⟩]
  else []

/-- An oracle with no replay paths at all. -/
def oracle0 : PathOracle := fun _ _ _ _ => []

/-- A provenance oracle with no paths. -/
def prov0 : ProvOracle := fun _ _ _ => []

/-- The new nodes of the `g1` migration. -/
def new1 : List Nat := [1, 2]

/-- The `g1` migration: extend from the empty state. -/
def c1Extend : Except RsError (Materializations × Graph) :=
  extend oracle1 g1 new1 false initMaterializations

/-- The `g1` migration: extend, then commit. -/
def c1Commit : Except RsError Materializations :=
  match c1Extend with
  | .ok pr => commit oracle1 pr.2 new1 pr.1
  | .error e => .error e

/-- Projection of a successful result (used to state concrete facts). -/
def getOk (r : Except RsError Materializations) : Materializations :=
  match r with
  | .ok s => s
  | .error _ => initMaterializations

/-- Projection of a successful `extend` result. -/
def getOkE (r : Except RsError (Materializations × Graph)) : Materializations × Graph :=
  match r with
  | .ok pr => pr
  | .error _ => (initMaterializations, ⟨[], []⟩)

instance {α : Type} [DecidableEq α] : DecidableEq (Except RsError α) := fun x y =>
  match x, y with
  | .ok a, .ok b =>
    if h : a = b then isTrue (by rw [h]) else isFalse (fun hc => by cases hc; exact h rfl)
  | .error a, .error b =>
    if h : a = b then isTrue (by rw [h]) else isFalse (fun hc => by cases hc; exact h rfl)
  | .ok _, .error _ => isFalse (fun hc => by cases hc)
  | .error _, .ok _ => isFalse (fun hc => by cases hc)

/-- An empty graph. -/
def g0 : Graph := { nodes := [], edges := [] }

/-- A state whose only content is a pending weak-index record on node 0. -/
def c2s : Materializations :=
  { initMaterializations with added_weak := [(0, [hash0])] }

/-- A replay path from node 1 to node 2 on `Hash[0]`. -/
def c3path : RawReplayPath := ⟨[⟨1, some hash0⟩, ⟨2, some hash0⟩], false⟩

/-- A state in which `(hash0, c3path)` is already recorded with tag 7. -/
def c3s2 : Materializations :=
  { initMaterializations with paths := [(2, [(7, (hash0, [1, 2]))])] }

/-- A two-node graph for the validate scan: 0 is an ancestor of 1. -/
def gC5 : Graph :=
  { nodes := [{}, {}], edges := [(0, 1)] }

/-- A state where node 0 is partial and node 1 is a non-partial added node
below it. -/
def sC5 : Materializations :=
  { initMaterializations with
      partialNodes := [0]
    , haveIdx := [(0, [hash0]), (1, [hash0])]
    , added := [(1, [hash0])] }

/-- `g1` with the reader renamed to `SHALLOW_r`. -/
def g8 : Graph :=
  { nodes :=
      [ { is_source := true }
      , { is_base := true }
      , { is_reader := true, reader_index := some hash0, reader_materialized := true
        , name := "SHALLOW_r" } ]
  , edges := [(0, 1), (1, 2)] }

/-- The `g8` migration. -/
def c8Extend : Except RsError (Materializations × Graph) :=
  extend oracle1 g8 new1 false initMaterializations

/-- A graph for the weak-index scenario: 0 = source, 1 = base, 2 = an
internal non-query-through operator that suggests a weak index on itself. -/
def g6 : Graph :=
  { nodes :=
      [ { is_source := true }
      , { is_base := true }
      , { is_internal := true, suggest := [(2, LookupIndex.weak hash2)], num_columns := 3 } ]
  , edges := [(0, 1), (1, 2)] }

/-- The `g6` migration. -/
def c6Extend : Except RsError (Materializations × Graph) :=
  extend oracle0 g6 new1 false initMaterializations

/-- Initial obligations for the pass-drain witness: keys 2 and 1. -/
def rp4 : NMap (List Index) := [(2, [hash0]), (1, [hash0])]

/-- A state in which node 1 is already materialized on `Hash[0]`. -/
def s4 : Materializations :=
  { initMaterializations with haveIdx := [(1, [hash0])], added := [(1, [hash0])] }

/-- A second `extend` call on the state produced by the first one. -/
def c10Extend2 : Except RsError (Materializations × Graph) :=
  extend oracle1 g1 new1 false (getOkE c1Extend).1

/-- A concrete partiality pass over `g1` with the empty path oracle. -/
def c4Pass : Except RsError (Materializations × NMap (List Index)) :=
  partialityPass g1 new1 false oracle0 s4 rp4

/-- Projection of a successful pass result. -/
def getOkP (r : Except RsError (Materializations × NMap (List Index))) :
    Materializations × NMap (List Index) :=
  match r with
  | .ok pr => pr
  | .error _ => (initMaterializations, [])

/-- Growth order on index maps: keys persist and per-key index sets grow. -/
def nmapLe (m m' : NMap (List Index)) : Prop :=
  (∀ k, mcontains m k = true → mcontains m' k = true) ∧
  (∀ k i, i ∈ mgetD m k [] → i ∈ mgetD m' k [])

/-- Growth order on planner states: the materialization record is monotone
(`have` keys persist with growing index sets, partial nodes stay partial). -/
def matLe (s s' : Materializations) : Prop :=
  nmapLe s.haveIdx s'.haveIdx ∧ ∀ n, n ∈ s.partialNodes → n ∈ s'.partialNodes

/-- Downward reachability in the graph (`p` is an ancestor-or-self of `c`). -/
inductive ReachD (g : Graph) : Nat → Nat → Prop
  | refl (v : Nat) : ReachD g v v
  | step {a b c : Nat} : (a, b) ∈ g.edges → ReachD g b c → ReachD g a c

/-- Every weak index recorded in `added_weak` is present in `have` (spec
invariant 3). -/
def weakSubHave (s : Materializations) : Prop :=
  ∀ n i, i ∈ mgetD s.added_weak n [] → i ∈ mgetD s.haveIdx n []

/-- Every index recorded in `added` is present in `have` (spec invariant 1,
`added ⊆ have`). -/
def addedSubHave (s : Materializations) : Prop :=
  ∀ n i, i ∈ mgetD s.added n [] → i ∈ mgetD s.haveIdx n []

/-- Every partial node is a key of `have` or a keyed reader. -/
def partialInHaveOrReader (g : Graph) (s : Materializations) : Prop :=
  ∀ n, n ∈ s.partialNodes → mcontains s.haveIdx n = true ∨ keyedReader g n = true

/-- No partial node is a base table. -/
def partialNotBase (g : Graph) (s : Materializations) : Prop :=
  ∀ n, n ∈ s.partialNodes → (g.node n).is_base = false

/-- Every node owing a replay obligation is materialized or a keyed reader. -/
def rpKeysOk (g : Graph) (s : Materializations) (rp : NMap (List Index)) : Prop :=
  ∀ k, k ∈ mkeys rp → mcontains s.haveIdx k = true ∨ keyedReader g k = true

/-! ## Theorems -/

theorem find_fst_filter_ne {α : Type} (m : NMap α) (k k' : Nat) (h : k' ≠ k) :
    (m.filter (fun p => p.1 != k)).find? (fun p => p.1 == k') =
      m.find? (fun p => p.1 == k') := by
  induction m with
  | nil => rfl
  | cons a t ih =>
    by_cases ha : a.1 = k
    · have h1 : (a.1 != k) = false := by simp [ha]
      have h2 : (a.1 == k') = false := by simp [ha]; exact fun hc => (h hc.symm).elim
      simp [List.filter_cons, h1, List.find?_cons, h2, ih]
    · have h1 : (a.1 != k) = true := by simp [ha]
      by_cases hk : a.1 = k'
      · simp [List.filter_cons, h1, List.find?_cons, hk, h]
      · have h2 : (a.1 == k') = false := by simp [hk]
        simp [List.filter_cons, h1, List.find?_cons, h2, ih]

theorem mget_mset_self {α : Type} (m : NMap α) (k : Nat) (v : α) :
    mget (mset m k v) k = some v := by
  simp [mget, mset, List.find?_cons]

theorem mget_mset_ne {α : Type} (m : NMap α) (k k' : Nat) (v : α) (h : k' ≠ k) :
    mget (mset m k v) k' = mget m k' := by
  have h2 : (k == k') = false := by simp; exact fun hc => (h hc.symm).elim
  simp [mget, mset, List.find?_cons, h2, find_fst_filter_ne m k k' h]

theorem mgetD_mset_self {α : Type} (m : NMap α) (k : Nat) (v d : α) :
    mgetD (mset m k v) k d = v := by
  simp [mgetD, mget_mset_self]

theorem mgetD_mset_ne {α : Type} (m : NMap α) (k k' : Nat) (v d : α) (h : k' ≠ k) :
    mgetD (mset m k v) k' d = mgetD m k' d := by
  simp [mgetD, mget_mset_ne m k k' v h]

theorem mcontains_mset_self {α : Type} (m : NMap α) (k : Nat) (v : α) :
    mcontains (mset m k v) k = true := by
  simp [mcontains, mget_mset_self]

theorem mcontains_mset_ne {α : Type} (m : NMap α) (k k' : Nat) (v : α) (h : k' ≠ k) :
    mcontains (mset m k v) k' = mcontains m k' := by
  simp [mcontains, mget_mset_ne m k k' v h]

theorem mget_mremove_self {α : Type} (m : NMap α) (k : Nat) :
    mget (mremove m k) k = none := by
  simp only [mget, mremove]
  induction m with
  | nil => rfl
  | cons a t ih =>
    by_cases ha : a.1 = k
    · have h1 : (a.1 != k) = false := by simp [ha]
      simp [List.filter_cons, h1, ih]
    · have h1 : (a.1 != k) = true := by simp [ha]
      have h2 : (a.1 == k) = false := by simp [ha]
      simp [List.filter_cons, h1, List.find?_cons, h2, ih]

theorem mget_mremove_ne {α : Type} (m : NMap α) (k k' : Nat) (h : k' ≠ k) :
    mget (mremove m k) k' = mget m k' := by
  simp [mget, mremove, find_fst_filter_ne m k k' h]

theorem mem_mkeys_of_mget {α : Type} (m : NMap α) (k : Nat) (v : α)
    (h : mget m k = some v) : k ∈ mkeys m := by
  simp only [mget, Option.map_eq_some'] at h
  obtain ⟨p, hp, _⟩ := h
  have hmem := List.mem_of_find?_eq_some hp
  have heq := List.find?_some hp
  simp only [beq_iff_eq] at heq
  simp only [mkeys, List.mem_map]
  exact ⟨p, hmem, heq⟩

theorem mget_eq_none_of_not_mem_mkeys {α : Type} (m : NMap α) (k : Nat)
    (h : k ∉ mkeys m) : mget m k = none := by
  cases hg : mget m k with
  | none => rfl
  | some v => exact absurd (mem_mkeys_of_mget m k v hg) h

theorem mem_idxIns_self (xs : List Index) (i : Index) : i ∈ idxIns xs i := by
  simp only [idxIns, idxInsNew]
  by_cases h : i ∈ xs <;> simp [h]

theorem mem_idxIns_of_mem (xs : List Index) (i j : Index) (h : j ∈ xs) :
    j ∈ idxIns xs i := by
  simp only [idxIns, idxInsNew]
  by_cases hc : i ∈ xs <;> simp [hc, h]

theorem mem_idxUnion_left (xs ys : List Index) (j : Index) (h : j ∈ xs) :
    j ∈ idxUnion xs ys := by
  induction ys generalizing xs with
  | nil => exact h
  | cons a t ih => exact ih (idxIns xs a) (mem_idxIns_of_mem xs a j h)

theorem mem_nins_self (s : List Nat) (k : Nat) : k ∈ nins s k := by
  simp only [nins]
  by_cases h : k ∈ s <;> simp [h]

theorem mem_nins_of_mem (s : List Nat) (k j : Nat) (h : j ∈ s) : j ∈ nins s k := by
  simp only [nins]
  by_cases hc : k ∈ s <;> simp [hc, h]

theorem idxInsNew_sup (xs : List Index) (i j : Index) (h : j ∈ xs) :
    j ∈ (idxInsNew xs i).2 := by
  simp only [idxInsNew]
  by_cases hc : i ∈ xs <;> simp [hc, h]

theorem idxInsNew_mem_self (xs : List Index) (i : Index) : i ∈ (idxInsNew xs i).2 := by
  simp only [idxInsNew]
  by_cases hc : i ∈ xs <;> simp [hc]

theorem idxInsNew_not_new (xs : List Index) (i : Index) (h : (idxInsNew xs i).1 = false) :
    i ∈ xs := by
  simp only [idxInsNew] at h
  by_cases hc : i ∈ xs
  · exact hc
  · simp [hc] at h

theorem foldE_inv {α β : Type} (P : β → Prop) (f : β → α → Except RsError β)
    (hstep : ∀ b a r, P b → f b a = .ok r → P r) :
    ∀ (l : List α) (b r : β), P b → foldE f l b = .ok r → P r := by
  intro l
  induction l with
  | nil =>
    intro b r hb h
    simp only [foldE] at h
    cases h
    exact hb
  | cons a t ih =>
    intro b r hb h
    simp only [foldE] at h
    cases hf : f b a with
    | error e => rw [hf] at h; cases h
    | ok b2 => rw [hf] at h; exact ih b2 r (hstep b a b2 hb hf) h

theorem foldE_rel {α β : Type} (R : β → β → Prop)
    (htrans : ∀ x y z, R x y → R y z → R x z)
    (hrefl : ∀ x, R x x)
    (f : β → α → Except RsError β) (hstep : ∀ b a r, f b a = .ok r → R b r) :
    ∀ (l : List α) (b r : β), foldE f l b = .ok r → R b r := by
  intro l
  induction l with
  | nil =>
    intro b r h
    simp only [foldE] at h
    cases h
    exact hrefl b
  | cons a t ih =>
    intro b r h
    simp only [foldE] at h
    cases hf : f b a with
    | error e => rw [hf] at h; cases h
    | ok b2 => rw [hf] at h; exact htrans b b2 r (hstep b a b2 hf) (ih b2 r h)

theorem foldl_inv {α β : Type} (P : β → Prop) (f : β → α → β)
    (hstep : ∀ b a, P b → P (f b a)) :
    ∀ (l : List α) (b : β), P b → P (l.foldl f b) := by
  intro l
  induction l with
  | nil => intro b hb; exact hb
  | cons a t ih => intro b hb; exact ih (f b a) (hstep b a hb)

theorem foldl_rel {α β : Type} (R : β → β → Prop)
    (htrans : ∀ x y z, R x y → R y z → R x z)
    (f : β → α → β) (hstep : ∀ b a, R b (f b a)) :
    ∀ (l : List α) (b : β), R b (l.foldl f b) ∨ l = [] := by
  intro l
  induction l with
  | nil => intro b; exact Or.inr rfl
  | cons a t ih =>
    intro b
    refine Or.inl ?_
    rcases ih (f b a) with h | h
    · exact htrans _ _ _ (hstep b a) h
    · subst h; exact hstep b a

theorem nmapLe_refl (m : NMap (List Index)) : nmapLe m m :=
  ⟨fun _ h => h, fun _ _ h => h⟩

theorem nmapLe_trans {a b c : NMap (List Index)} (h1 : nmapLe a b) (h2 : nmapLe b c) :
    nmapLe a c :=
  ⟨fun k hk => h2.1 k (h1.1 k hk), fun k i hi => h2.2 k i (h1.2 k i hi)⟩

theorem nmapLe_mset (m : NMap (List Index)) (k : Nat) (v : List Index)
    (h : ∀ i, i ∈ mgetD m k [] → i ∈ v) : nmapLe m (mset m k v) := by
  constructor
  · intro k' hk'
    by_cases hkk : k' = k
    · subst hkk; exact mcontains_mset_self m k' v
    · rw [mcontains_mset_ne m k k' v hkk]; exact hk'
  · intro k' i hi
    by_cases hkk : k' = k
    · subst hkk; rw [mgetD_mset_self]; exact h i hi
    · rw [mgetD_mset_ne m k k' v [] hkk]; exact hi

theorem matLe_refl (s : Materializations) : matLe s s :=
  ⟨nmapLe_refl s.haveIdx, fun _ h => h⟩

theorem matLe_trans {a b c : Materializations} (h1 : matLe a b) (h2 : matLe b c) :
    matLe a c :=
  ⟨nmapLe_trans h1.1 h2.1, fun n hn => h2.2 n (h1.2 n hn)⟩

/-- Claim C9: with the redact build option enabled, the Display and Debug
output of the `Sensitive` and `RedactedString` wrappers is the constant
string `<redacted>`, independent of the wrapped value; with it disabled the
wrappers render exactly the wrapped value's own Display and Debug output. -/
theorem c9_redaction {T : Type} (displayT debugT : T → String)
    (debugString : String → String) (x y : T) (sx sy : String) :
    sensitiveDisplay true displayT x = sensitiveDisplay true displayT y
    ∧ sensitiveDisplay true displayT x = redactedLabel
    ∧ sensitiveDisplay false displayT x = displayT x
    ∧ sensitiveDebug true debugT x = sensitiveDebug true debugT y
    ∧ sensitiveDebug true debugT x = redactedLabel
    ∧ sensitiveDebug false debugT x = debugT x
    ∧ redactedStringDisplay true sx = redactedStringDisplay true sy
    ∧ redactedStringDisplay true sx = redactedLabel
    ∧ redactedStringDisplay false sx = sx
    ∧ redactedStringDebug true debugString sx = redactedStringDebug true debugString sy
    ∧ redactedStringDebug true debugString sx = redactedLabel
    ∧ redactedStringDebug false debugString sx = debugString sx := by
  simp [sensitiveDisplay, sensitiveDebug, redactedStringDisplay, redactedStringDebug]

/-- Claim C7: `get_status(n, node)` returns `Not` iff `n` is not a key of
`have` and the node is not a reader whose `is_materialized()` is true; when
it does not return `Not`, it returns `Partial{beyond: node.purge}` exactly
when `n ∈ partial` and `Full` otherwise. -/
theorem c7_get_status (s : Materializations) (n : Nat) (node : NodeData) :
    (get_status s n node = MaterializationStatus.notMaterialized
      ↔ (mcontains s.haveIdx n = false
          ∧ ¬(node.is_reader = true ∧ node.reader_materialized = true)))
    ∧ (get_status s n node ≠ MaterializationStatus.notMaterialized →
        ((get_status s n node = MaterializationStatus.partiallyMaterialized node.purge
            ↔ n ∈ s.partialNodes)
         ∧ (get_status s n node = MaterializationStatus.fullyMaterialized
            ↔ n ∉ s.partialNodes))) := by
  unfold get_status
  by_cases h1 : mcontains s.haveIdx n = true
  · by_cases h4 : n ∈ s.partialNodes <;> simp [h1, h4]
  · rw [Bool.not_eq_true] at h1
    by_cases h2 : node.is_reader = true
    · by_cases h3 : node.reader_materialized = true
      · by_cases h4 : n ∈ s.partialNodes <;> simp [h1, h2, h3, h4]
      · rw [Bool.not_eq_true] at h3
        simp [h1, h2, h3]
    · rw [Bool.not_eq_true] at h2
      simp [h1, h2]

/-- Claim C7 witness: at a concrete state and node, the status is not `Not`
and the partial characterization holds. -/
theorem c7_witness :
    get_status sC5 0 (gC5.node 0) ≠ MaterializationStatus.notMaterialized
    ∧ (get_status sC5 0 (gC5.node 0)
        = MaterializationStatus.partiallyMaterialized (gC5.node 0).purge
       ↔ 0 ∈ sC5.partialNodes) :=
  ⟨by decide, ((c7_get_status sC5 0 (gC5.node 0)).2 (by decide)).1⟩

/-- Claim C3 counterexample: on a state whose `paths` does not hold the
`(index, path)` pair, two repeated calls to `tag_for_path` with equal
arguments return different tags (the first minted tag is not recorded). -/
theorem c3_counterexample :
    (tag_for_path initMaterializations hash0 c3path).1 ≠
      (tag_for_path (tag_for_path initMaterializations hash0 c3path).2 hash0 c3path).1 := by
  decide

/-- Claim C3 (amended): when `(index, path)` is recorded in `paths` under the
path's target (so the stored-tag lookup succeeds), `tag_for_path` returns
the stored tag and leaves the state unchanged, hence repeated calls return
the same tag. -/
theorem c3_amended (s : Materializations) (index : Index) (p : RawReplayPath) (t : Nat)
    (h : lookupTag s index p = some t) :
    tag_for_path s index p = (t, s)
    ∧ tag_for_path (tag_for_path s index p).2 index p = (t, s) := by
  have h1 : tag_for_path s index p = (t, s) := by
    unfold tag_for_path
    rw [h]
  refine ⟨h1, ?_⟩
  rw [h1]
  exact h1

/-- Claim C3 witness: with tag 7 stored for `(hash0, c3path)`, both calls
return 7 and do not change the state. -/
theorem c3_witness :
    lookupTag c3s2 hash0 c3path = some 7
    ∧ tag_for_path c3s2 hash0 c3path = (7, c3s2)
    ∧ tag_for_path (tag_for_path c3s2 hash0 c3path).2 hash0 c3path = (7, c3s2) :=
  ⟨by decide, (c3_amended c3s2 hash0 c3path 7 (by decide)).1,
    (c3_amended c3s2 hash0 c3path 7 (by decide)).2⟩

theorem tag_for_path_core (s : Materializations) (index : Index) (p : RawReplayPath) :
    ((tag_for_path s index p).2).haveIdx = s.haveIdx
    ∧ ((tag_for_path s index p).2).had = s.had
    ∧ ((tag_for_path s index p).2).added = s.added
    ∧ ((tag_for_path s index p).2).added_weak = s.added_weak
    ∧ ((tag_for_path s index p).2).new_readers = s.new_readers
    ∧ ((tag_for_path s index p).2).partialNodes = s.partialNodes := by
  unfold tag_for_path next_tag
  cases lookupTag s index p <;> simp

theorem setupTagPaths_core (index : Index) :
    ∀ (ps : List RawReplayPath) (acc : List (Nat × (Index × List Nat)) × Materializations),
    ((setupTagPaths index ps acc).2).haveIdx = acc.2.haveIdx
    ∧ ((setupTagPaths index ps acc).2).had = acc.2.had
    ∧ ((setupTagPaths index ps acc).2).added = acc.2.added
    ∧ ((setupTagPaths index ps acc).2).added_weak = acc.2.added_weak
    ∧ ((setupTagPaths index ps acc).2).new_readers = acc.2.new_readers
    ∧ ((setupTagPaths index ps acc).2).partialNodes = acc.2.partialNodes := by
  intro ps
  induction ps with
  | nil => intro acc; exact ⟨rfl, rfl, rfl, rfl, rfl, rfl⟩
  | cons path rest ih =>
    intro acc
    have hc := tag_for_path_core acc.2 index path
    have hr := ih ((acc.1 ++ [((tag_for_path acc.2 index path).1,
      (index, path.segments.map IndexRef.node))], (tag_for_path acc.2 index path).2))
    simp only [setupTagPaths]
    exact ⟨hr.1.trans hc.1, hr.2.1.trans hc.2.1, hr.2.2.1.trans hc.2.2.1,
      hr.2.2.2.1.trans hc.2.2.2.1, hr.2.2.2.2.1.trans hc.2.2.2.2.1,
      hr.2.2.2.2.2.trans hc.2.2.2.2.2⟩

theorem setupTagIdx_core (oracle : PathOracle) (g : Graph) (ni : Nat) :
    ∀ (il : List Index) (acc : List (Nat × (Index × List Nat)) × Materializations),
    ((setupTagIdx oracle g ni il acc).2).haveIdx = acc.2.haveIdx
    ∧ ((setupTagIdx oracle g ni il acc).2).had = acc.2.had
    ∧ ((setupTagIdx oracle g ni il acc).2).added = acc.2.added
    ∧ ((setupTagIdx oracle g ni il acc).2).added_weak = acc.2.added_weak
    ∧ ((setupTagIdx oracle g ni il acc).2).new_readers = acc.2.new_readers
    ∧ ((setupTagIdx oracle g ni il acc).2).partialNodes = acc.2.partialNodes := by
  intro il
  induction il with
  | nil => intro acc; exact ⟨rfl, rfl, rfl, rfl, rfl, rfl⟩
  | cons index rest ih =>
    intro acc
    have hp := setupTagPaths_core index (oracle g ni index.columns index.index_type) acc
    have hr := ih (setupTagPaths index (oracle g ni index.columns index.index_type) acc)
    simp only [setupTagIdx]
    exact ⟨hr.1.trans hp.1, hr.2.1.trans hp.2.1, hr.2.2.1.trans hp.2.2.1,
      hr.2.2.2.1.trans hp.2.2.2.1, hr.2.2.2.2.1.trans hp.2.2.2.2.1,
      hr.2.2.2.2.2.trans hp.2.2.2.2.2⟩

theorem setupModel_core (oracle : PathOracle) (g : Graph) (s : Materializations) (ni : Nat)
    (idx : List Index) (r : Materializations) (h : setupModel oracle g s ni idx = .ok r) :
    r.haveIdx = s.haveIdx ∧ r.had = s.had ∧ r.added = s.added
    ∧ r.added_weak = s.added_weak ∧ r.new_readers = s.new_readers
    ∧ r.partialNodes = s.partialNodes := by
  unfold setupModel at h
  cases hgi : setupGetIdx g ni idx with
  | error e => rw [hgi] at h; cases h
  | ok index_on =>
    rw [hgi] at h
    have hr := setupTagIdx_core oracle g ni index_on ([], s)
    injection h with h2
    subst h2
    exact hr

theorem readyOne_core (oracle : PathOracle) (g : Graph) (s : Materializations) (ni : Nat)
    (idx : List Index) (r : Materializations) (h : readyOne oracle g s ni idx = .ok r) :
    r.haveIdx = s.haveIdx ∧ r.had = s.had ∧ r.added = s.added
    ∧ r.added_weak = s.added_weak ∧ r.new_readers = s.new_readers
    ∧ r.partialNodes = s.partialNodes := by
  simp only [readyOne] at h
  split at h
  · split at h
    · cases h
    · injection h with h2; subst h2; exact ⟨rfl, rfl, rfl, rfl, rfl, rfl⟩
  · split at h
    · injection h with h2; subst h2; exact ⟨rfl, rfl, rfl, rfl, rfl, rfl⟩
    · exact setupModel_core oracle g s ni idx r h

theorem commitReindexStep_core (oracle : PathOracle) (g : Graph) (new : List Nat)
    (s : Materializations) (node : Nat) (r : Materializations)
    (h : commitReindexStep oracle g new s node = .ok r) :
    r.haveIdx = s.haveIdx ∧ r.had = s.had ∧ r.added_weak = s.added_weak
    ∧ r.new_readers = s.new_readers ∧ r.partialNodes = s.partialNodes := by
  simp only [commitReindexStep] at h
  split at h
  · cases h
  · have hc := setupModel_core oracle g _ node _ r h
    exact ⟨hc.1, hc.2.1, hc.2.2.2.1, hc.2.2.2.2.1, hc.2.2.2.2.2⟩

theorem commitMakeStep_core (oracle : PathOracle) (g : Graph)
    (s : Materializations) (ni : Nat) (r : Materializations)
    (h : commitMakeStep oracle g s ni = .ok r) :
    r.haveIdx = s.haveIdx ∧ r.had = s.had ∧ r.added_weak = s.added_weak
    ∧ r.new_readers = s.new_readers ∧ r.partialNodes = s.partialNodes := by
  simp only [commitMakeStep] at h
  split at h
  · rename_i idxs heq
    split at h
    · cases h
    · have hc := readyOne_core oracle g _ ni idxs r h
      exact ⟨hc.1, hc.2.1, hc.2.2.2.1, hc.2.2.2.2.1, hc.2.2.2.2.2⟩
  · have hc := readyOne_core oracle g s ni [] r h
    exact ⟨hc.1, hc.2.1, hc.2.2.2.1, hc.2.2.2.2.1, hc.2.2.2.2.2⟩

theorem commit_core (oracle : PathOracle) (g : Graph) (new : List Nat)
    (s s' : Materializations) (h : commit oracle g new s = .ok s') :
    s'.haveIdx = s.haveIdx ∧ s'.added_weak = s.added_weak
    ∧ s'.partialNodes = s.partialNodes ∧ s'.added = []
    ∧ s'.new_readers = [] := by
  simp only [commit] at h
  cases h1 : foldE (commitReindexStep oracle g new)
      ((topoNonDropped g).filter (fun v => !(new.contains v) && mcontains s.added v)) s with
  | error e => rw [h1] at h; cases h
  | ok s1 =>
    rw [h1] at h
    simp only [] at h
    cases h2 : foldE (commitMakeStep oracle g)
        ((topoNonDropped g).filter (fun v => new.contains v)) s1 with
    | error e => rw [h2] at h; cases h
    | ok s2 =>
      rw [h2] at h
      simp only [] at h
      have hp1 : s1.haveIdx = s.haveIdx ∧ s1.added_weak = s.added_weak
          ∧ s1.partialNodes = s.partialNodes := by
        refine foldE_inv (fun x => x.haveIdx = s.haveIdx ∧ x.added_weak = s.added_weak
          ∧ x.partialNodes = s.partialNodes) _ ?_ _ s s1 ⟨rfl, rfl, rfl⟩ h1
        intro b a rr hb hs
        have hc := commitReindexStep_core oracle g new b a rr hs
        exact ⟨hc.1.trans hb.1, hc.2.2.1.trans hb.2.1, hc.2.2.2.2.trans hb.2.2⟩
      have hp2 : s2.haveIdx = s.haveIdx ∧ s2.added_weak = s.added_weak
          ∧ s2.partialNodes = s.partialNodes := by
        refine foldE_inv (fun x => x.haveIdx = s.haveIdx ∧ x.added_weak = s.added_weak
          ∧ x.partialNodes = s.partialNodes) _ ?_ _ s1 s2 hp1 h2
        intro b a rr hb hs
        have hc := commitMakeStep_core oracle g b a rr hs
        exact ⟨hc.1.trans hb.1, hc.2.2.1.trans hb.2.1, hc.2.2.2.2.trans hb.2.2⟩
      injection h with h3
      subst h3
      exact ⟨hp2.1, hp2.2.1, hp2.2.2, rfl, rfl⟩

theorem nins_foldl_sup (l : List (Nat × List Index)) :
    ∀ (had : List Nat) (k : Nat), k ∈ had →
      k ∈ l.foldl (fun had pr => nins had pr.1) had := by
  induction l with
  | nil => intro had k hk; exact hk
  | cons a t ih => intro had k hk; exact ih (nins had a.1) k (mem_nins_of_mem had a.1 k hk)

theorem nins_foldl_mem (l : List (Nat × List Index)) :
    ∀ (had : List Nat) (p : Nat × List Index), p ∈ l →
      p.1 ∈ l.foldl (fun had pr => nins had pr.1) had := by
  induction l with
  | nil => intro had p hp; cases hp
  | cons a t ih =>
    intro had p hp
    rcases List.mem_cons.mp hp with h | h
    · subst h
      exact nins_foldl_sup t (nins had p.1) p.1 (mem_nins_self had p.1)
    · exact ih (nins had a.1) p h

theorem commit_had_sup (oracle : PathOracle) (g : Graph) (new : List Nat)
    (s s' : Materializations) (h : commit oracle g new s = .ok s') :
    ∀ k, mcontains s'.haveIdx k = true → k ∈ s'.had := by
  simp only [commit] at h
  cases h1 : foldE (commitReindexStep oracle g new)
      ((topoNonDropped g).filter (fun v => !(new.contains v) && mcontains s.added v)) s with
  | error e => rw [h1] at h; cases h
  | ok s1 =>
    rw [h1] at h
    simp only [] at h
    cases h2 : foldE (commitMakeStep oracle g)
        ((topoNonDropped g).filter (fun v => new.contains v)) s1 with
    | error e => rw [h2] at h; cases h
    | ok s2 =>
      rw [h2] at h
      simp only [] at h
      injection h with h3
      subst h3
      intro k hk
      simp only [mcontains] at hk
      cases hg : mget s2.haveIdx k with
      | none => rw [hg] at hk; cases hk
      | some v =>
        have hmem := mem_mkeys_of_mget s2.haveIdx k v hg
        simp only [mkeys, List.mem_map] at hmem
        obtain ⟨p, hp, hpk⟩ := hmem
        exact hpk ▸ nins_foldl_mem s2.haveIdx s2.had p hp

/-- Claim C2 counterexample: `commit` succeeds on a state with a pending
weak-index record and leaves `added_weak` nonempty — `commit` does not clear
`added_weak`. -/
theorem c2_counterexample :
    (commit oracle0 g0 [] c2s).isOk = true
    ∧ (getOk (commit oracle0 g0 [] c2s)).added_weak ≠ [] := by
  constructor
  · decide
  · decide

/-- Claim C2 (amended): when `commit` returns successfully, `added` and
`new_readers` are empty and every key of `have` is contained in `had`;
`added_weak` is left exactly as it was (it is not cleared by `commit`). -/
theorem c2_amended (oracle : PathOracle) (g : Graph) (new : List Nat)
    (s s' : Materializations) (h : commit oracle g new s = .ok s') :
    s'.added = [] ∧ s'.new_readers = []
    ∧ (∀ k, mcontains s'.haveIdx k = true → k ∈ s'.had)
    ∧ s'.added_weak = s.added_weak := by
  have hc := commit_core oracle g new s s' h
  exact ⟨hc.2.2.2.1, hc.2.2.2.2, commit_had_sup oracle g new s s' h, hc.2.1⟩

/-- Claim C2 witness: the amended statement applied to the concrete commit
of the `c2s` state. -/
theorem c2_witness :
    (getOk (commit oracle0 g0 [] c2s)).added = []
    ∧ (getOk (commit oracle0 g0 [] c2s)).added_weak = c2s.added_weak := by
  have h := c2_amended oracle0 g0 [] c2s (getOk (commit oracle0 g0 [] c2s)) (by decide)
  exact ⟨h.1, h.2.2.2⟩

theorem mgetD_nil_of_none {m : NMap (List Index)} {k : Nat} (h : mget m k = none) :
    mgetD m k [] = [] := by
  simp [mgetD, h]

theorem depositOne_matLe (mi : Nat) (acc : Materializations × NMap (List Index))
    (li : LookupIndex) : matLe acc.1 (depositOne mi acc li).1 := by
  unfold depositOne
  by_cases hw : li.isWeak = true
  · by_cases hn : (idxInsNew (mgetD acc.1.added mi []) li.index).1 = true
    · simp only [hw, if_true, hn]
      exact ⟨nmapLe_mset _ mi _ (fun i hi => mem_idxIns_of_mem _ li.index i hi), fun n hn => hn⟩
    · rw [Bool.not_eq_true] at hn
      simp only [hw, if_true, hn, if_false, Bool.false_eq_true]
      exact matLe_refl _
  · rw [Bool.not_eq_true] at hw
    by_cases hn : (idxInsNew (mgetD acc.1.added mi []) li.index).1 = true
    · simp only [hw, Bool.false_eq_true, if_false, hn, if_true]
      exact ⟨nmapLe_mset _ mi _ (fun i hi => mem_idxIns_of_mem _ li.index i hi), fun n hn => hn⟩
    · rw [Bool.not_eq_true] at hn
      simp only [hw, Bool.false_eq_true, if_false, hn]
      exact matLe_refl _

theorem depositLookups_matLe (mi : Nat) :
    ∀ (il : List LookupIndex) (acc : Materializations × NMap (List Index)),
    matLe acc.1 (depositLookups acc mi il).1 := by
  intro il
  induction il with
  | nil => intro acc; exact matLe_refl _
  | cons li rest ih =>
    intro acc
    exact matLe_trans (depositOne_matLe mi acc li) (ih (depositOne mi acc li))

theorem hoistAll_matLe (g : Graph) (lk : NMap (List LookupIndex))
    (acc r : Materializations × NMap (List Index)) (h : hoistAll g lk acc = .ok r) :
    matLe acc.1 r.1 := by
  refine foldE_rel (fun a b => matLe a.1 b.1)
    (fun x y z (h1 : matLe x.1 y.1) (h2 : matLe y.1 z.1) => matLe_trans h1 h2)
    (fun x => matLe_refl _) _ ?_ lk acc r h
  intro b a rr hs
  unfold hoistAll at hs
  cases hw : hoistWalk g b.1.haveIdx (a.1 + 1) a.1 a.2 with
  | error e => rw [hw] at hs; cases hs
  | ok res =>
    rw [hw] at hs
    injection hs with hs2
    subst hs2
    exact depositLookups_matLe res.1 res.2 b

theorem collectOne_core (g : Graph) (acc : Materializations × NMap (List LookupIndex) × NMap (List Index))
    (ni : Nat) :
    (collectOne g acc ni).1.haveIdx = acc.1.haveIdx
    ∧ (collectOne g acc ni).1.partialNodes = acc.1.partialNodes
    ∧ (collectOne g acc ni).1.added = acc.1.added
    ∧ (collectOne g acc ni).1.added_weak = acc.1.added_weak := by
  by_cases hr : (g.node ni).is_reader = true
  · cases hri : (g.node ni).reader_index with
    | some index => simp [collectOne, hr, hri]
    | none => simp [collectOne, hr, hri]
  · rw [Bool.not_eq_true] at hr
    simp [collectOne, hr]

theorem collectLoop_core (g : Graph) :
    ∀ (l : List Nat) (acc : Materializations × NMap (List LookupIndex) × NMap (List Index)),
    (collectLoop g l acc).1.haveIdx = acc.1.haveIdx
    ∧ (collectLoop g l acc).1.partialNodes = acc.1.partialNodes
    ∧ (collectLoop g l acc).1.added = acc.1.added
    ∧ (collectLoop g l acc).1.added_weak = acc.1.added_weak := by
  intro l
  induction l with
  | nil => intro acc; exact ⟨rfl, rfl, rfl, rfl⟩
  | cons ni rest ih =>
    intro acc
    have h1 := collectOne_core g acc ni
    have h2 := ih (collectOne g acc ni)
    simp only [collectLoop]
    exact ⟨h2.1.trans h1.1, h2.2.1.trans h1.2.1, h2.2.2.1.trans h1.2.2.1,
      h2.2.2.2.trans h1.2.2.2⟩

theorem walkSegs_nmapLe (plen : Nat) (isBroken : Bool) :
    ∀ (items : List (Nat × IndexRef)) (st : PassAcc),
    nmapLe st.haveIdx (walkSegs plen isBroken items st).haveIdx := by
  intro items
  induction items with
  | nil => intro st; exact nmapLe_refl _
  | cons item rest ih =>
    intro st
    simp only [walkSegs]
    cases item.2.index with
    | none => exact nmapLe_refl _
    | some index =>
      cases hm : mget st.haveIdx item.2.node with
      | some m =>
        by_cases hmem : index ∈ m <;> simp only [hmem, if_true, if_false] <;> exact nmapLe_refl _
      | none =>
        by_cases hb : (item.1 == plen - 1 && isBroken) = true
        · simp only [hb, if_true]
          refine nmapLe_trans ?_ (ih _)
          exact nmapLe_mset _ item.2.node [] (by rw [mgetD_nil_of_none hm]; intro i hi; exact hi)
        · rw [Bool.not_eq_true] at hb
          simp only [hb, Bool.false_eq_true, if_false]
          exact ih st

theorem walkSegs_able (plen : Nat) (isBroken : Bool) :
    ∀ (items : List (Nat × IndexRef)) (st : PassAcc),
    (walkSegs plen isBroken items st).able = true → st.able = true := by
  intro items
  induction items with
  | nil => intro st h; exact h
  | cons item rest ih =>
    intro st
    simp only [walkSegs]
    cases item.2.index with
    | none => intro h; cases h
    | some index =>
      cases hm : mget st.haveIdx item.2.node with
      | some m =>
        by_cases hmem : index ∈ m <;> simp only [hmem, if_true, if_false] <;> exact fun h => h
      | none =>
        by_cases hb : (item.1 == plen - 1 && isBroken) = true
        · simp only [hb, if_true]
          intro h
          have h2 := ih _ h
          exact h2
        · rw [Bool.not_eq_true] at hb
          simp only [hb, Bool.false_eq_true, if_false]
          exact ih st

theorem walkPaths_nmapLe (ni : Nat) :
    ∀ (ps : List RawReplayPath) (st : PassAcc),
    nmapLe st.haveIdx (walkPaths ni ps st).haveIdx := by
  intro ps
  induction ps with
  | nil => intro st; exact nmapLe_refl _
  | cons p rest ih =>
    intro st
    simp only [walkPaths]
    by_cases hs : st.stopAll = true
    · simp only [hs, if_true]; exact nmapLe_refl _
    · rw [Bool.not_eq_true] at hs
      simp only [hs, Bool.false_eq_true, if_false]
      exact nmapLe_trans (walkSegs_nmapLe _ _ _ st) (ih _)

theorem walkPaths_able (ni : Nat) :
    ∀ (ps : List RawReplayPath) (st : PassAcc),
    (walkPaths ni ps st).able = true → st.able = true := by
  intro ps
  induction ps with
  | nil => intro st h; exact h
  | cons p rest ih =>
    intro st
    simp only [walkPaths]
    by_cases hs : st.stopAll = true
    · simp only [hs, if_true]; exact fun h => h
    · rw [Bool.not_eq_true] at hs
      simp only [hs, Bool.false_eq_true, if_false]
      intro h
      exact walkSegs_able _ _ _ st (ih _ h)

theorem haveIns_matLe (isRecovery : Bool) (ni : Nat) :
    ∀ (idxs : List Index) (s : Materializations), matLe s (haveIns isRecovery ni idxs s) := by
  intro idxs
  induction idxs with
  | nil => intro s; exact matLe_refl s
  | cons index rest ih =>
    intro s
    simp only [haveIns]
    refine matLe_trans ?_ (ih _)
    by_cases hc : ((idxInsNew (mgetD s.haveIdx ni []) index).1
        || (s.partialNodes.contains ni) || isRecovery) = true
    · simp only [hc, if_true]
      exact ⟨nmapLe_mset _ ni _ (fun i hi => idxInsNew_sup _ index i hi), fun n h => h⟩
    · rw [Bool.not_eq_true] at hc
      simp only [hc, Bool.false_eq_true, if_false]
      exact ⟨nmapLe_mset _ ni _ (fun i hi => idxInsNew_sup _ index i hi), fun n h => h⟩

theorem haveLoop_matLe (isRecovery : Bool) (s : Materializations) (ni : Nat)
    (idxs : List Index) : matLe s (haveLoop isRecovery s ni idxs) := by
  unfold haveLoop
  cases mget s.haveIdx ni with
  | none => exact matLe_refl s
  | some m => exact haveIns_matLe isRecovery ni idxs s

theorem passStep_matLe (g : Graph) (new : List Nat) (isRecovery : Bool) (oracle : PathOracle)
    (acc r : Materializations × NMap (List Index))
    (h : passStep g new isRecovery oracle acc ni = .ok r) : matLe acc.1 r.1 := by
  simp only [passStep] at h
  cases hm : mget acc.2 ni with
  | none => rw [hm] at h; injection h with h2; subst h2; exact matLe_refl _
  | some indexes =>
    rw [hm] at h
    simp only [] at h
    have hW : nmapLe acc.1.haveIdx
        (walkPaths ni
          ((gatherPaths oracle g ni indexes).filter (fun p => p.broken) ++
            (gatherPaths oracle g ni indexes).filter (fun p => !p.broken))
          { able := ableInit g new acc.1 ni, stopAll := false, add := [],
            haveIdx := acc.1.haveIdx }).haveIdx :=
      walkPaths_nmapLe ni
        ((gatherPaths oracle g ni indexes).filter (fun p => p.broken) ++
          (gatherPaths oracle g ni indexes).filter (fun p => !p.broken))
        { able := ableInit g new acc.1 ni, stopAll := false, add := [],
          haveIdx := acc.1.haveIdx }
    split at h
    · injection h with h2
      subst h2
      refine matLe_trans ?_ (haveLoop_matLe _ _ _ _)
      exact ⟨hW, fun n hn => mem_nins_of_mem _ ni n hn⟩
    · split at h
      · cases h
      · split at h
        · cases h
        · injection h with h2
          subst h2
          refine matLe_trans ?_ (haveLoop_matLe _ _ _ _)
          exact ⟨hW, fun n hn => hn⟩

theorem partialityPass_matLe (g : Graph) (new : List Nat) (isRecovery : Bool)
    (oracle : PathOracle) (s : Materializations) (rp : NMap (List Index))
    (r : Materializations × NMap (List Index))
    (h : partialityPass g new isRecovery oracle s rp = .ok r) : matLe s r.1 := by
  refine foldE_rel (fun a b => matLe a.1 b.1)
    (fun x y z (h1 : matLe x.1 y.1) (h2 : matLe y.1 z.1) => matLe_trans h1 h2)
    (fun x => matLe_refl _) _ ?_ _ (s, rp) r h
  intro b a rr hs
  exact passStep_matLe g new isRecovery oracle b rr hs

/-- Claim C10: `extend` is monotone on the persistent materialization
record — on success, every key of `have` before the call is still a key
afterwards with a superset of its index set, and every partial node remains
partial. -/
theorem c10_extend_monotone (oracle : PathOracle) (g : Graph) (new : List Nat)
    (isRecovery : Bool) (s s₁ : Materializations) (g' : Graph)
    (h : extend oracle g new isRecovery s = .ok (s₁, g')) : matLe s s₁ := by
  simp only [extend] at h
  cases h1 : hoistAll g (collectObligations g new s).2.1
      ((collectObligations g new s).1, (collectObligations g new s).2.2) with
  | error e => rw [h1] at h; cases h
  | ok acc =>
    rw [h1] at h
    simp only [] at h
    cases h2 : partialityPass g new isRecovery oracle acc.1 acc.2 with
    | error e => rw [h2] at h; cases h
    | ok acc2 =>
      rw [h2] at h
      simp only [] at h
      have hcol := collectLoop_core g new (s, [], [])
      have hc : matLe s (collectObligations g new s).1 := by
        unfold collectObligations
        exact ⟨by rw [(collectLoop_core g new (s, [], [])).1]; exact nmapLe_refl _,
          by rw [(collectLoop_core g new (s, [], [])).2.1]; exact fun n hn => hn⟩
      have hh := hoistAll_matLe g _ _ acc h1
      have hp := partialityPass_matLe g new isRecovery oracle acc.1 acc.2 acc2 h2
      split at h
      · cases h
      · cases h3 : foldE (purgeMoveStep acc2.1 new) new (frontierLoop acc2.1 new g) with
        | error e => rw [h3] at h; cases h
        | ok g3 =>
          rw [h3] at h
          simp only [] at h
          injection h with h4
          have h5 : acc2.1 = s₁ := congrArg Prod.fst h4
          rw [← h5]
          exact matLe_trans hc (matLe_trans hh hp)

/-- Claim C10 witness: a second `extend` over the state produced by the
first one preserves its materializations and partial set. -/
theorem c10_witness : matLe (getOkE c1Extend).1 (getOkE c10Extend2).1 :=
  c10_extend_monotone oracle1 g1 new1 false (getOkE c1Extend).1
    (getOkE c10Extend2).1 (getOkE c10Extend2).2 (by decide)

theorem mem_idxIns_cases {xs : List Index} {i j : Index} (h : i ∈ idxIns xs j) :
    i ∈ xs ∨ i = j := by
  simp only [idxIns, idxInsNew] at h
  by_cases hc : j ∈ xs
  · simp only [hc, if_true] at h; exact Or.inl h
  · simp only [hc, if_false] at h
    rcases List.mem_append.mp h with h2 | h2
    · exact Or.inl h2
    · exact Or.inr (List.mem_singleton.mp h2)

theorem mem_idxInsNew_cases {xs : List Index} {i j : Index} (h : i ∈ (idxInsNew xs j).2) :
    i ∈ xs ∨ i = j := mem_idxIns_cases h

theorem sub_mset_mset (aw hv : NMap (List Index)) (mi : Nat) (awv hvv : List Index)
    (hbase : ∀ n i, i ∈ mgetD aw n [] → i ∈ mgetD hv n [])
    (hmi : ∀ i, i ∈ awv → i ∈ hvv) :
    ∀ n i, i ∈ mgetD (mset aw mi awv) n [] → i ∈ mgetD (mset hv mi hvv) n [] := by
  intro n i hi
  by_cases hn : n = mi
  · subst hn
    rw [mgetD_mset_self] at hi
    rw [mgetD_mset_self]
    exact hmi i hi
  · rw [mgetD_mset_ne _ _ _ _ _ hn] at hi
    rw [mgetD_mset_ne _ _ _ _ _ hn]
    exact hbase n i hi

theorem sub_mset_right (aw hv : NMap (List Index)) (mi : Nat) (hvv : List Index)
    (hbase : ∀ n i, i ∈ mgetD aw n [] → i ∈ mgetD hv n [])
    (hmi : ∀ i, i ∈ mgetD hv mi [] → i ∈ hvv) :
    ∀ n i, i ∈ mgetD aw n [] → i ∈ mgetD (mset hv mi hvv) n [] := by
  intro n i hi
  by_cases hn : n = mi
  · subst hn
    rw [mgetD_mset_self]
    exact hmi i (hbase n i hi)
  · rw [mgetD_mset_ne _ _ _ _ _ hn]
    exact hbase n i hi

theorem sub_mset_left (aw hv : NMap (List Index)) (mi : Nat) (awv : List Index)
    (hbase : ∀ n i, i ∈ mgetD aw n [] → i ∈ mgetD hv n [])
    (hmi : ∀ i, i ∈ awv → i ∈ mgetD hv mi []) :
    ∀ n i, i ∈ mgetD (mset aw mi awv) n [] → i ∈ mgetD hv n [] := by
  intro n i hi
  by_cases hn : n = mi
  · subst hn
    rw [mgetD_mset_self] at hi
    exact hmi i hi
  · rw [mgetD_mset_ne _ _ _ _ _ hn] at hi
    exact hbase n i hi

theorem sub_nmapLe {aw hv hv' : NMap (List Index)}
    (hbase : ∀ n i, i ∈ mgetD aw n [] → i ∈ mgetD hv n []) (hle : nmapLe hv hv') :
    ∀ n i, i ∈ mgetD aw n [] → i ∈ mgetD hv' n [] :=
  fun n i hi => hle.2 n i (hbase n i hi)

theorem depositOne_pres (mi : Nat) (acc : Materializations × NMap (List Index))
    (li : LookupIndex) (hP : weakSubHave acc.1 ∧ addedSubHave acc.1) :
    weakSubHave (depositOne mi acc li).1 ∧ addedSubHave (depositOne mi acc li).1 := by
  obtain ⟨hW, hA⟩ := hP
  unfold weakSubHave at hW
  unfold addedSubHave at hA
  unfold weakSubHave addedSubHave
  unfold depositOne
  by_cases hw : li.isWeak = true
  · simp only [hw, if_true]
    by_cases hn : (idxInsNew (mgetD acc.1.added mi []) li.index).1 = true
    · simp only [hn, if_true]
      constructor
      · refine sub_mset_mset _ _ mi _ _ hW ?_
        intro i hi
        rcases mem_idxIns_cases hi with h2 | h2
        · exact mem_idxIns_of_mem _ li.index i (hW mi i h2)
        · subst h2; exact mem_idxIns_self _ li.index
      · refine sub_mset_mset _ _ mi _ _ hA ?_
        intro i hi
        rcases mem_idxInsNew_cases hi with h2 | h2
        · exact mem_idxIns_of_mem _ li.index i (hA mi i h2)
        · subst h2; exact mem_idxIns_self _ li.index
    · rw [Bool.not_eq_true] at hn
      simp only [hn, Bool.false_eq_true, if_false]
      have hin : li.index ∈ mgetD acc.1.added mi [] := idxInsNew_not_new _ li.index hn
      constructor
      · refine sub_mset_left _ _ mi _ hW ?_
        intro i hi
        rcases mem_idxIns_cases hi with h2 | h2
        · exact hW mi i h2
        · subst h2; exact hA mi li.index hin
      · refine sub_mset_left _ _ mi _ hA ?_
        intro i hi
        rcases mem_idxInsNew_cases hi with h2 | h2
        · exact hA mi i h2
        · subst h2; exact hA mi li.index hin
  · rw [Bool.not_eq_true] at hw
    simp only [hw, Bool.false_eq_true, if_false]
    by_cases hn : (idxInsNew (mgetD acc.1.added mi []) li.index).1 = true
    · simp only [hn, if_true]
      constructor
      · refine sub_mset_right _ _ mi _ hW ?_
        intro i hi
        exact mem_idxIns_of_mem _ li.index i hi
      · refine sub_mset_mset _ _ mi _ _ hA ?_
        intro i hi
        rcases mem_idxInsNew_cases hi with h2 | h2
        · exact mem_idxIns_of_mem _ li.index i (hA mi i h2)
        · subst h2; exact mem_idxIns_self _ li.index
    · rw [Bool.not_eq_true] at hn
      simp only [hn, Bool.false_eq_true, if_false]
      have hin : li.index ∈ mgetD acc.1.added mi [] := idxInsNew_not_new _ li.index hn
      constructor
      · exact hW
      · refine sub_mset_left _ _ mi _ hA ?_
        intro i hi
        rcases mem_idxInsNew_cases hi with h2 | h2
        · exact hA mi i h2
        · subst h2; exact hA mi li.index hin

theorem depositLookups_pres (mi : Nat) :
    ∀ (il : List LookupIndex) (acc : Materializations × NMap (List Index)),
    weakSubHave acc.1 ∧ addedSubHave acc.1 →
    weakSubHave (depositLookups acc mi il).1 ∧ addedSubHave (depositLookups acc mi il).1 := by
  intro il
  induction il with
  | nil => intro acc h; exact h
  | cons li rest ih =>
    intro acc h
    exact ih (depositOne mi acc li) (depositOne_pres mi acc li h)

theorem hoistAll_pres (g : Graph) (lk : NMap (List LookupIndex))
    (acc r : Materializations × NMap (List Index)) (h : hoistAll g lk acc = .ok r)
    (hP : weakSubHave acc.1 ∧ addedSubHave acc.1) :
    weakSubHave r.1 ∧ addedSubHave r.1 := by
  refine foldE_inv (fun (x : Materializations × NMap (List Index)) =>
    weakSubHave x.1 ∧ addedSubHave x.1) _ ?_ lk acc r hP h
  intro b a rr hb hs
  unfold hoistAll at hs
  cases hw : hoistWalk g b.1.haveIdx (a.1 + 1) a.1 a.2 with
  | error e => rw [hw] at hs; cases hs
  | ok res =>
    rw [hw] at hs
    injection hs with hs2
    subst hs2
    exact depositLookups_pres res.1 res.2 b hb

theorem haveIns_pres (isRecovery : Bool) (ni : Nat) :
    ∀ (idxs : List Index) (s : Materializations),
    weakSubHave s ∧ addedSubHave s →
    weakSubHave (haveIns isRecovery ni idxs s) ∧ addedSubHave (haveIns isRecovery ni idxs s) := by
  intro idxs
  induction idxs with
  | nil => intro s h; exact h
  | cons index rest ih =>
    intro s h
    obtain ⟨hW, hA⟩ := h
    simp only [haveIns]
    refine ih _ ?_
    have hle : nmapLe s.haveIdx (mset s.haveIdx ni (idxInsNew (mgetD s.haveIdx ni []) index).2) :=
      nmapLe_mset _ ni _ (fun i hi => idxInsNew_sup _ index i hi)
    by_cases hc : ((idxInsNew (mgetD s.haveIdx ni []) index).1
        || (s.partialNodes.contains ni) || isRecovery) = true
    · simp only [hc, if_true]
      constructor
      · exact sub_nmapLe hW hle
      · refine sub_mset_left _ _ ni _ (sub_nmapLe hA hle) ?_
        intro i hi
        rcases mem_idxIns_cases hi with h2 | h2
        · exact (sub_nmapLe hA hle) ni i h2
        · rw [h2, mgetD_mset_self]
          exact idxInsNew_mem_self _ index
    · rw [Bool.not_eq_true] at hc
      simp only [hc, Bool.false_eq_true, if_false]
      exact ⟨sub_nmapLe hW hle, sub_nmapLe hA hle⟩

theorem haveLoop_pres (isRecovery : Bool) (s : Materializations) (ni : Nat)
    (idxs : List Index) (h : weakSubHave s ∧ addedSubHave s) :
    weakSubHave (haveLoop isRecovery s ni idxs) ∧ addedSubHave (haveLoop isRecovery s ni idxs) := by
  unfold haveLoop
  cases mget s.haveIdx ni with
  | none => exact h
  | some m => exact haveIns_pres isRecovery ni idxs s h

theorem passStep_pres (g : Graph) (new : List Nat) (isRecovery : Bool) (oracle : PathOracle)
    (acc r : Materializations × NMap (List Index)) (ni : Nat)
    (h : passStep g new isRecovery oracle acc ni = .ok r)
    (hP : weakSubHave acc.1 ∧ addedSubHave acc.1) :
    weakSubHave r.1 ∧ addedSubHave r.1 := by
  simp only [passStep] at h
  cases hm : mget acc.2 ni with
  | none => rw [hm] at h; injection h with h2; subst h2; exact hP
  | some indexes =>
    rw [hm] at h
    simp only [] at h
    have hW : nmapLe acc.1.haveIdx
        (walkPaths ni
          ((gatherPaths oracle g ni indexes).filter (fun p => p.broken) ++
            (gatherPaths oracle g ni indexes).filter (fun p => !p.broken))
          { able := ableInit g new acc.1 ni, stopAll := false, add := [],
            haveIdx := acc.1.haveIdx }).haveIdx :=
      walkPaths_nmapLe ni
        ((gatherPaths oracle g ni indexes).filter (fun p => p.broken) ++
          (gatherPaths oracle g ni indexes).filter (fun p => !p.broken))
        { able := ableInit g new acc.1 ni, stopAll := false, add := [],
          haveIdx := acc.1.haveIdx }
    split at h
    · injection h with h2
      subst h2
      exact haveLoop_pres _ _ _ _ ⟨sub_nmapLe hP.1 hW, sub_nmapLe hP.2 hW⟩
    · split at h
      · cases h
      · split at h
        · cases h
        · injection h with h2
          subst h2
          exact haveLoop_pres _ _ _ _ ⟨sub_nmapLe hP.1 hW, sub_nmapLe hP.2 hW⟩

/-- Claim C6: after every successful `extend`, every index recorded in
`added_weak` has a matching index in `have` on the same node
(`∀ (n, i) ∈ added_weak. i ∈ have[n]`), provided the state already satisfied
that invariant (together with `added ⊆ have`) before the call. -/
theorem c6_added_weak (oracle : PathOracle) (g : Graph) (new : List Nat)
    (isRecovery : Bool) (s s₁ : Materializations) (g' : Graph)
    (hW : weakSubHave s) (hA : addedSubHave s)
    (h : extend oracle g new isRecovery s = .ok (s₁, g')) : weakSubHave s₁ := by
  simp only [extend] at h
  cases h1 : hoistAll g (collectObligations g new s).2.1
      ((collectObligations g new s).1, (collectObligations g new s).2.2) with
  | error e => rw [h1] at h; cases h
  | ok acc =>
    rw [h1] at h
    simp only [] at h
    cases h2 : partialityPass g new isRecovery oracle acc.1 acc.2 with
    | error e => rw [h2] at h; cases h
    | ok acc2 =>
      rw [h2] at h
      simp only [] at h
      have hc0 : weakSubHave (collectObligations g new s).1
          ∧ addedSubHave (collectObligations g new s).1 := by
        have hcol := collectLoop_core g new (s, [], [])
        unfold collectObligations
        unfold weakSubHave addedSubHave
        rw [hcol.1, hcol.2.2.1, hcol.2.2.2]
        exact ⟨hW, hA⟩
      have hc1 := hoistAll_pres g _ _ acc h1 hc0
      have hc2 : weakSubHave acc2.1 ∧ addedSubHave acc2.1 := by
        refine foldE_inv (fun (x : Materializations × NMap (List Index)) =>
          weakSubHave x.1 ∧ addedSubHave x.1) _ ?_ _ (acc.1, acc.2) acc2 hc1 h2
        intro b a rr hb hs
        exact passStep_pres g new isRecovery oracle b rr a hs hb
      split at h
      · cases h
      · cases h3 : foldE (purgeMoveStep acc2.1 new) new (frontierLoop acc2.1 new g) with
        | error e => rw [h3] at h; cases h
        | ok g3 =>
          rw [h3] at h
          simp only [] at h
          injection h with h4
          have h5 : acc2.1 = s₁ := congrArg Prod.fst h4
          rw [← h5]
          exact hc2.1

/-- Claim C6 witness: the weak-index migration over `g6` satisfies the
invariant (the weak `Hash[2]` on node 2 has its strict twin in `have[2]`). -/
theorem c6_witness : weakSubHave (getOkE c6Extend).1 :=
  c6_added_weak oracle0 g6 new1 false initMaterializations (getOkE c6Extend).1
    (getOkE c6Extend).2
    (fun n i hi => absurd hi (List.not_mem_nil i))
    (fun n i hi => absurd hi (List.not_mem_nil i))
    (by decide)

theorem node_setPurge (g : Graph) (u : Nat) (b : Bool) (v : Nat) :
    ((setPurge g u b).node v).purge =
      if v = u ∧ u < g.nodes.length then b else (g.node v).purge := by
  unfold setPurge Graph.node
  by_cases h1 : v = u
  · subst h1
    by_cases h2 : v < g.nodes.length
    · simp [List.getD, List.getElem?_set_self', h2, List.getElem?_eq_getElem]
    · simp [List.getD, h2, List.set_eq_of_length_le (Nat.le_of_not_lt h2)]
  · simp [List.getD, List.getElem?_set_ne (fun hc => h1 hc.symm), h1]

theorem node_setPurge_stable (g : Graph) (u : Nat) (b : Bool) (v : Nat) :
    ((setPurge g u b).node v).name = (g.node v).name
    ∧ ((setPurge g u b).node v).is_reader = (g.node v).is_reader
    ∧ ((setPurge g u b).node v).is_base = (g.node v).is_base
    ∧ (setPurge g u b).nodes.length = g.nodes.length := by
  unfold setPurge Graph.node
  by_cases h1 : v = u
  · subst h1
    by_cases h2 : v < g.nodes.length
    · simp [List.getD, List.getElem?_set_self', h2, List.getElem?_eq_getElem]
    · simp [List.getD, h2, List.set_eq_of_length_le (Nat.le_of_not_lt h2)]
  · simp [List.getD, List.getElem?_set_ne (fun hc => h1 hc.symm), h1]

theorem setPurge_purge_mono (g : Graph) (u : Nat) (b : Bool) (v : Nat)
    (hv : (g.node v).purge = true) (hb : v = u → b = true) :
    ((setPurge g u b).node v).purge = true := by
  rw [node_setPurge]
  by_cases h1 : v = u ∧ u < g.nodes.length
  · rw [if_pos h1]; exact hb h1.1
  · rw [if_neg h1]; exact hv

theorem frontierStep_purge_mono (s : Materializations) (g : Graph) (u v : Nat)
    (hv : (g.node v).purge = true) :
    ((frontierStep s g u).node v).purge = true := by
  by_cases hA : (mcontains s.haveIdx u = true ∨ (g.node u).is_reader = true)
      ∧ u ∉ s.partialNodes
  · simpa [frontierStep, hA] using hv
  · by_cases h2 : strStarts (g.node u).name shallowMark = true
    · simpa [frontierStep, hA, h2] using setPurge_purge_mono g u true v hv (fun _ => rfl)
    · by_cases h3 : u ∈ s.partialNodes
      · cases hfs : s.config.frontier_strategy with
        | fsNone => simpa [frontierStep, hA, h2, h3, hfs] using hv
        | fsAll =>
          simpa [frontierStep, hA, h2, h3, hfs] using
            setPurge_purge_mono g u true v hv (fun _ => rfl)
        | fsReaders =>
          refine Eq.trans ?_ (setPurge_purge_mono g u ((g.node u).purge || (g.node u).is_reader)
            v hv (fun h4 => by subst h4; rw [hv]; rfl))
          simp [frontierStep, hA, h2, h3, hfs]
      · simpa [frontierStep, hA, h2, h3] using hv

theorem frontierStep_stable (s : Materializations) (g : Graph) (u v : Nat) :
    ((frontierStep s g u).node v).name = (g.node v).name
    ∧ ((frontierStep s g u).node v).is_reader = (g.node v).is_reader
    ∧ ((frontierStep s g u).node v).is_base = (g.node v).is_base
    ∧ (frontierStep s g u).nodes.length = g.nodes.length := by
  by_cases hA : (mcontains s.haveIdx u = true ∨ (g.node u).is_reader = true)
      ∧ u ∉ s.partialNodes
  · simp [frontierStep, hA]
  · by_cases h2 : strStarts (g.node u).name shallowMark = true
    · have hs := node_setPurge_stable g u true v
      simp [frontierStep, hA, h2, hs.1, hs.2.1, hs.2.2.1, hs.2.2.2]
    · by_cases h3 : u ∈ s.partialNodes
      · cases hfs : s.config.frontier_strategy with
        | fsNone => simp [frontierStep, hA, h2, h3, hfs]
        | fsAll =>
          have hs := node_setPurge_stable g u true v
          simp [frontierStep, hA, h2, h3, hfs, hs.1, hs.2.1, hs.2.2.1, hs.2.2.2]
        | fsReaders =>
          have hs := node_setPurge_stable g u ((g.node u).purge || (g.node u).is_reader) v
          simp [frontierStep, hA, h2, h3, hfs, hs.1, hs.2.1, hs.2.2.1, hs.2.2.2]
      · simp [frontierStep, hA, h2, h3]

theorem frontierLoop_purge_mono (s : Materializations) :
    ∀ (l : List Nat) (g : Graph) (v : Nat), (g.node v).purge = true →
    ((frontierLoop s l g).node v).purge = true := by
  intro l
  induction l with
  | nil => intro g v hv; exact hv
  | cons u rest ih =>
    intro g v hv
    exact ih (frontierStep s g u) v (frontierStep_purge_mono s g u v hv)

theorem frontierStep_shallow (s : Materializations) (g : Graph) (ni : Nat)
    (hlen : ni < g.nodes.length) (hpart : ni ∈ s.partialNodes)
    (hname : strStarts (g.node ni).name shallowMark = true) :
    ((frontierStep s g ni).node ni).purge = true := by
  have hA : ¬((mcontains s.haveIdx ni = true ∨ (g.node ni).is_reader = true)
      ∧ ni ∉ s.partialNodes) := fun hc => hc.2 hpart
  simp [frontierStep, hA, hname, node_setPurge, hlen]

theorem frontierLoop_shallow (s : Materializations) :
    ∀ (l : List Nat) (g : Graph) (ni : Nat), ni ∈ l → ni < g.nodes.length →
    ni ∈ s.partialNodes → strStarts (g.node ni).name shallowMark = true →
    ((frontierLoop s l g).node ni).purge = true := by
  intro l
  induction l with
  | nil => intro g ni hmem; cases hmem
  | cons u rest ih =>
    intro g ni hmem hlen hpart hname
    rcases List.mem_cons.mp hmem with h1 | h1
    · subst h1
      exact frontierLoop_purge_mono s rest (frontierStep s g ni) ni
        (frontierStep_shallow s g ni hlen hpart hname)
    · have hst := frontierStep_stable s g u ni
      exact ih (frontierStep s g u) ni h1 (hst.2.2.2 ▸ hlen) hpart (hst.1 ▸ hname)

theorem purgeMoveStep_purge_mono (s : Materializations) (new : List Nat)
    (g g' : Graph) (u v : Nat) (h : purgeMoveStep s new g u = .ok g')
    (hv : (g.node v).purge = true) : (g'.node v).purge = true := by
  unfold purgeMoveStep at h
  split at h
  · refine foldE_inv (fun gg : Graph => (gg.node v).purge = true) _ ?_ _ g g' hv h
    intro b a rr hb hs
    split at hs
    · injection hs with hs2; subst hs2; exact hb
    · split at hs
      · injection hs with hs2; subst hs2; exact hb
      · split at hs
        · cases hs
        · injection hs with hs2
          subst hs2
          exact setPurge_purge_mono b a true v hb (fun _ => rfl)
  · injection h with h2; subst h2; exact hv

/-- Claim C8: after a successful `extend`, every new node that ended up
partial and whose name starts with `SHALLOW_` has its purge flag set, for
every configured frontier strategy. -/
theorem c8_shallow (oracle : PathOracle) (g : Graph) (new : List Nat)
    (isRecovery : Bool) (s s₁ : Materializations) (g' : Graph)
    (h : extend oracle g new isRecovery s = .ok (s₁, g'))
    (ni : Nat) (hmem : ni ∈ new) (hlen : ni < g.nodes.length)
    (hpart : ni ∈ s₁.partialNodes)
    (hname : strStarts (g.node ni).name shallowMark = true) :
    (g'.node ni).purge = true := by
  simp only [extend] at h
  cases h1 : hoistAll g (collectObligations g new s).2.1
      ((collectObligations g new s).1, (collectObligations g new s).2.2) with
  | error e => rw [h1] at h; cases h
  | ok acc =>
    rw [h1] at h
    simp only [] at h
    cases h2 : partialityPass g new isRecovery oracle acc.1 acc.2 with
    | error e => rw [h2] at h; cases h
    | ok acc2 =>
      rw [h2] at h
      simp only [] at h
      split at h
      · cases h
      · cases h3 : foldE (purgeMoveStep acc2.1 new) new (frontierLoop acc2.1 new g) with
        | error e => rw [h3] at h; cases h
        | ok g3 =>
          rw [h3] at h
          simp only [] at h
          injection h with h4
          have h5 : acc2.1 = s₁ := congrArg Prod.fst h4
          have h6 : g3 = g' := congrArg Prod.snd h4
          have hfl : ((frontierLoop acc2.1 new g).node ni).purge = true :=
            frontierLoop_shallow acc2.1 new g ni hmem hlen (h5 ▸ hpart) hname
          have hmono : ∀ (l : List Nat) (ga gb : Graph),
              foldE (purgeMoveStep acc2.1 new) l ga = .ok gb →
              (ga.node ni).purge = true → (gb.node ni).purge = true := by
            intro l ga gb hh hga
            refine foldE_inv (fun gg : Graph => (gg.node ni).purge = true) _ ?_ l ga gb hga hh
            intro b a rr hb hs
            exact purgeMoveStep_purge_mono acc2.1 new b rr a ni hs hb
          rw [← h6]
          exact hmono new (frontierLoop acc2.1 new g) g3 h3 hfl

/-- Claim C8 witness: the `g8` migration (reader named `SHALLOW_r`, partial
after the pass) ends with the purge flag set on node 2. -/
theorem c8_witness : ((getOkE c8Extend).2.node 2).purge = true :=
  c8_shallow oracle1 g8 new1 false initMaterializations (getOkE c8Extend).1
    (getOkE c8Extend).2 (by decide) 2 (by decide) (by decide) (by decide) (by decide)

theorem mem_mkeys_mset_cases {α : Type} {m : NMap α} {k0 k : Nat} {v : α}
    (h : k ∈ mkeys (mset m k0 v)) : k = k0 ∨ k ∈ mkeys m := by
  simp only [mset, mkeys, List.map_cons, List.mem_cons] at h
  rcases h with h | h
  · exact Or.inl h
  · right
    simp only [List.mem_map] at h
    obtain ⟨p, hp, hpk⟩ := h
    exact List.mem_map.mpr ⟨p, List.mem_of_mem_filter hp, hpk⟩

theorem mem_mkeys_mremove {α : Type} {m : NMap α} {k0 k : Nat}
    (h : k ∈ mkeys (mremove m k0)) : k ∈ mkeys m := by
  simp only [mremove, mkeys, List.mem_map] at h ⊢
  obtain ⟨p, hp, hpk⟩ := h
  exact ⟨p, List.mem_of_mem_filter hp, hpk⟩

theorem mcontains_of_mget_some {α : Type} {m : NMap α} {k : Nat} {v : α}
    (h : mget m k = some v) : mcontains m k = true := by
  simp [mcontains, h]

theorem mem_nins_cases {s : List Nat} {k0 k : Nat} (h : k ∈ nins s k0) :
    k ∈ s ∨ k = k0 := by
  simp only [nins] at h
  by_cases hc : k0 ∈ s
  · simp only [hc, if_true] at h; exact Or.inl h
  · simp only [hc, if_false] at h
    rcases List.mem_append.mp h with h2 | h2
    · exact Or.inl h2
    · exact Or.inr (List.mem_singleton.mp h2)

theorem ableInit_not_base {g : Graph} {new : List Nat} {s : Materializations} {ni : Nat}
    (h : ableInit g new s ni = true) : (g.node ni).is_base = false := by
  simp only [ableInit, Bool.and_eq_true] at h
  have h2 := h.1.1.1.2
  simpa using h2

theorem pinv_transport {g : Graph} {s s' : Materializations}
    (hp : partialInHaveOrReader g s)
    (hkeys : ∀ k, mcontains s.haveIdx k = true → mcontains s'.haveIdx k = true)
    (hpart : ∀ n, n ∈ s'.partialNodes → n ∈ s.partialNodes) :
    partialInHaveOrReader g s' :=
  fun n hn => (hp n (hpart n hn)).elim (fun h => Or.inl (hkeys n h)) Or.inr

theorem pnb_transport {g : Graph} {s s' : Materializations}
    (hp : partialNotBase g s)
    (hpart : ∀ n, n ∈ s'.partialNodes → n ∈ s.partialNodes) :
    partialNotBase g s' :=
  fun n hn => hp n (hpart n hn)

theorem rpk_transport {g : Graph} {s s' : Materializations}
    {rp rp' : NMap (List Index)} (hp : rpKeysOk g s rp)
    (hkeys : ∀ k, mcontains s.haveIdx k = true → mcontains s'.haveIdx k = true)
    (hsub : ∀ k, k ∈ mkeys rp' → k ∈ mkeys rp) :
    rpKeysOk g s' rp' :=
  fun k hk => (hp k (hsub k hk)).elim (fun h => Or.inl (hkeys k h)) Or.inr

theorem haveIns_partial_eq (isRecovery : Bool) (ni : Nat) :
    ∀ (idxs : List Index) (s : Materializations),
    (haveIns isRecovery ni idxs s).partialNodes = s.partialNodes := by
  intro idxs
  induction idxs with
  | nil => intro s; rfl
  | cons index rest ih =>
    intro s
    simp only [haveIns]
    refine (ih _).trans ?_
    by_cases hc : ((idxInsNew (mgetD s.haveIdx ni []) index).1
        || (s.partialNodes.contains ni) || isRecovery) = true
    · simp only [hc, if_true]
    · rw [Bool.not_eq_true] at hc
      simp only [hc, Bool.false_eq_true, if_false]

theorem haveLoop_partial_eq (isRecovery : Bool) (s : Materializations) (ni : Nat)
    (idxs : List Index) :
    (haveLoop isRecovery s ni idxs).partialNodes = s.partialNodes := by
  unfold haveLoop
  cases mget s.haveIdx ni with
  | none => rfl
  | some m => exact haveIns_partial_eq isRecovery ni idxs s

theorem walkSegs_addKeys (plen : Nat) (isBroken : Bool) :
    ∀ (items : List (Nat × IndexRef)) (st : PassAcc),
    (∀ k, k ∈ mkeys st.add → mcontains st.haveIdx k = true) →
    ∀ k, k ∈ mkeys (walkSegs plen isBroken items st).add →
      mcontains (walkSegs plen isBroken items st).haveIdx k = true := by
  intro items
  induction items with
  | nil => intro st h; exact h
  | cons item rest ih =>
    intro st hst
    simp only [walkSegs]
    cases item.2.index with
    | none => exact hst
    | some index =>
      cases hm : mget st.haveIdx item.2.node with
      | some m =>
        by_cases hmem : index ∈ m
        · simp only [hmem, if_true]; exact hst
        · simp only [hmem, if_false]
          intro k hk
          rcases mem_mkeys_mset_cases hk with h2 | h2
          · exact h2 ▸ mcontains_of_mget_some hm
          · exact hst k h2
      | none =>
        by_cases hb : (item.1 == plen - 1 && isBroken) = true
        · simp only [hb, if_true]
          refine ih _ ?_
          intro k hk
          rcases mem_mkeys_mset_cases hk with h2 | h2
          · subst h2; exact mcontains_mset_self _ _ _
          · by_cases hkn : k = item.2.node
            · subst hkn; exact mcontains_mset_self _ _ _
            · rw [mcontains_mset_ne _ _ _ _ hkn]
              exact hst k h2
        · rw [Bool.not_eq_true] at hb
          simp only [hb, Bool.false_eq_true, if_false]
          exact ih st hst

theorem walkPaths_addKeys (ni : Nat) :
    ∀ (ps : List RawReplayPath) (st : PassAcc),
    (∀ k, k ∈ mkeys st.add → mcontains st.haveIdx k = true) →
    ∀ k, k ∈ mkeys (walkPaths ni ps st).add →
      mcontains (walkPaths ni ps st).haveIdx k = true := by
  intro ps
  induction ps with
  | nil => intro st h; exact h
  | cons p rest ih =>
    intro st hst
    simp only [walkPaths]
    by_cases hs : st.stopAll = true
    · simp only [hs, if_true]; exact hst
    · rw [Bool.not_eq_true] at hs
      simp only [hs, Bool.false_eq_true, if_false]
      exact ih _ (walkSegs_addKeys _ _ _ st hst)

theorem addFold_keys (Q : Nat → Prop) :
    ∀ (addl : NMap (List Index)) (rp : NMap (List Index)),
    (∀ p ∈ addl, Q p.1) → (∀ k, k ∈ mkeys rp → Q k) →
    ∀ k, k ∈ mkeys (addFold addl rp) → Q k := by
  intro addl
  induction addl with
  | nil => intro rp _ hrp; exact hrp
  | cons pr rest ih =>
    intro rp hadd hrp
    simp only [addFold]
    refine ih _ (fun p hp => hadd p (List.mem_cons_of_mem pr hp)) ?_
    intro k hk
    rcases mem_mkeys_mset_cases hk with h2 | h2
    · exact h2 ▸ hadd pr (List.mem_cons_self pr rest)
    · exact hrp k h2

theorem passStep_c1 (g : Graph) (new : List Nat) (isRecovery : Bool) (oracle : PathOracle)
    (acc r : Materializations × NMap (List Index)) (ni : Nat)
    (h : passStep g new isRecovery oracle acc ni = .ok r)
    (hP : partialInHaveOrReader g acc.1 ∧ partialNotBase g acc.1 ∧ rpKeysOk g acc.1 acc.2) :
    partialInHaveOrReader g r.1 ∧ partialNotBase g r.1 ∧ rpKeysOk g r.1 r.2 := by
  obtain ⟨hp1, hp2, hp3⟩ := hP
  simp only [passStep] at h
  cases hm : mget acc.2 ni with
  | none => rw [hm] at h; injection h with h2; subst h2; exact ⟨hp1, hp2, hp3⟩
  | some indexes =>
    rw [hm] at h
    simp only [] at h
    have hni : mcontains acc.1.haveIdx ni = true ∨ keyedReader g ni = true :=
      hp3 ni (mem_mkeys_of_mget acc.2 ni indexes hm)
    set PS := (gatherPaths oracle g ni indexes).filter (fun p => p.broken) ++
        (gatherPaths oracle g ni indexes).filter (fun p => !p.broken) with hPS
    set st0 : PassAcc := ({ able := ableInit g new acc.1 ni, stopAll := false, add := [], haveIdx := acc.1.haveIdx } : PassAcc) with hst0
    have hWle : nmapLe acc.1.haveIdx (walkPaths ni PS st0).haveIdx :=
      walkPaths_nmapLe ni PS st0
    have hWK : ∀ k, k ∈ mkeys (walkPaths ni PS st0).add →
        mcontains (walkPaths ni PS st0).haveIdx k = true := by
      refine walkPaths_addKeys ni PS st0 ?_
      intro k hk
      simp only [mkeys, List.map_nil] at hk
      cases hk
    split at h
    · rename_i hable
      injection h with h2
      subst h2
      set sB : Materializations := ({ acc.1 with haveIdx := (walkPaths ni PS st0).haveIdx, partialNodes := nins acc.1.partialNodes ni } : Materializations) with hsB
      show partialInHaveOrReader g (haveLoop isRecovery sB ni indexes)
        ∧ partialNotBase g (haveLoop isRecovery sB ni indexes)
        ∧ rpKeysOk g (haveLoop isRecovery sB ni indexes)
            (addFold (walkPaths ni PS st0).add (mremove acc.2 ni))
      have hploop := haveLoop_matLe isRecovery sB ni indexes
      have hpeq := haveLoop_partial_eq isRecovery sB ni indexes
      have hkeys : ∀ k, mcontains acc.1.haveIdx k = true →
          mcontains (haveLoop isRecovery sB ni indexes).haveIdx k = true :=
        fun k hk => hploop.1.1 k (hWle.1 k hk)
      have hkeysW : ∀ k, mcontains (walkPaths ni PS st0).haveIdx k = true →
          mcontains (haveLoop isRecovery sB ni indexes).haveIdx k = true :=
        fun k hk => hploop.1.1 k hk
      have hpmem : ∀ n, n ∈ (haveLoop isRecovery sB ni indexes).partialNodes →
          n ∈ acc.1.partialNodes ∨ n = ni := by
        intro n hn
        rw [hpeq] at hn
        exact mem_nins_cases hn
      refine ⟨?_, ?_, ?_⟩
      · intro n hn
        rcases hpmem n hn with h3 | h3
        · rcases hp1 n h3 with h4 | h4
          · exact Or.inl (hkeys n h4)
          · exact Or.inr h4
        · subst h3
          rcases hni with h4 | h4
          · exact Or.inl (hkeys n h4)
          · exact Or.inr h4
      · intro n hn
        rcases hpmem n hn with h3 | h3
        · exact hp2 n h3
        · rw [h3]
          exact ableInit_not_base (walkPaths_able ni PS st0 hable)
      · refine addFold_keys _ _ _ ?_ ?_
        · intro p hp
          exact Or.inl (hkeysW p.1 (hWK p.1 (List.mem_map.mpr ⟨p, hp, rfl⟩)))
        · intro k hk
          rcases hp3 k (mem_mkeys_mremove hk) with h4 | h4
          · exact Or.inl (hkeys k h4)
          · exact Or.inr h4
    · split at h
      · cases h
      · split at h
        · cases h
        · injection h with h2
          subst h2
          set sA : Materializations := ({ acc.1 with haveIdx := (walkPaths ni PS st0).haveIdx } : Materializations) with hsA
          show partialInHaveOrReader g (haveLoop isRecovery sA ni indexes)
            ∧ partialNotBase g (haveLoop isRecovery sA ni indexes)
            ∧ rpKeysOk g (haveLoop isRecovery sA ni indexes) (mremove acc.2 ni)
          have hploop := haveLoop_matLe isRecovery sA ni indexes
          have hpeq := haveLoop_partial_eq isRecovery sA ni indexes
          have hkeys : ∀ k, mcontains acc.1.haveIdx k = true →
              mcontains (haveLoop isRecovery sA ni indexes).haveIdx k = true :=
            fun k hk => hploop.1.1 k (hWle.1 k hk)
          refine ⟨?_, ?_, ?_⟩
          · intro n hn
            rw [hpeq] at hn
            rcases hp1 n hn with h4 | h4
            · exact Or.inl (hkeys n h4)
            · exact Or.inr h4
          · intro n hn
            rw [hpeq] at hn
            exact hp2 n hn
          · intro k hk
            rcases hp3 k (mem_mkeys_mremove hk) with h4 | h4
            · exact Or.inl (hkeys k h4)
            · exact Or.inr h4

theorem mcontains_mset_of {α : Type} {m : NMap α} {k k0 : Nat} {v : α}
    (h : mcontains m k = true) : mcontains (mset m k0 v) k = true := by
  by_cases hk : k = k0
  · subst hk; exact mcontains_mset_self m k v
  · rw [mcontains_mset_ne m k0 k v hk]; exact h

theorem collectOne_rpKeys (g : Graph)
    (acc : Materializations × NMap (List LookupIndex) × NMap (List Index)) (ni : Nat)
    (hP : rpKeysOk g acc.1 acc.2.2) :
    rpKeysOk g (collectOne g acc ni).1 (collectOne g acc ni).2.2 := by
  by_cases hr : (g.node ni).is_reader = true
  · cases hri : (g.node ni).reader_index with
    | some index =>
      intro k hk
      simp only [collectOne, hr, if_true, hri] at hk ⊢
      rcases mem_mkeys_mset_cases hk with h2 | h2
      · subst h2
        refine Or.inr ?_
        simp [keyedReader, hr, hri]
      · exact hP k h2
    | none =>
      intro k hk
      simp only [collectOne, hr, if_true, hri] at hk ⊢
      exact hP k hk
  · rw [Bool.not_eq_true] at hr
    intro k hk
    simp only [collectOne, hr, Bool.false_eq_true, if_false] at hk ⊢
    exact hP k hk

theorem collectLoop_rpKeys (g : Graph) :
    ∀ (l : List Nat) (acc : Materializations × NMap (List LookupIndex) × NMap (List Index)),
    rpKeysOk g acc.1 acc.2.2 →
    rpKeysOk g (collectLoop g l acc).1 (collectLoop g l acc).2.2 := by
  intro l
  induction l with
  | nil => intro acc h; exact h
  | cons ni rest ih =>
    intro acc h
    exact ih (collectOne g acc ni) (collectOne_rpKeys g acc ni h)

theorem collectLoop_partial_eq (g : Graph) (l : List Nat)
    (acc : Materializations × NMap (List LookupIndex) × NMap (List Index)) :
    (collectLoop g l acc).1.partialNodes = acc.1.partialNodes :=
  (collectLoop_core g l acc).2.1

theorem depositOne_partial_eq (mi : Nat) (acc : Materializations × NMap (List Index))
    (li : LookupIndex) : (depositOne mi acc li).1.partialNodes = acc.1.partialNodes := by
  unfold depositOne
  by_cases hw : li.isWeak = true
  · by_cases hn : (idxInsNew (mgetD acc.1.added mi []) li.index).1 = true
    · simp only [hw, if_true, hn]
    · rw [Bool.not_eq_true] at hn
      simp only [hw, if_true, hn, Bool.false_eq_true, if_false]
  · rw [Bool.not_eq_true] at hw
    by_cases hn : (idxInsNew (mgetD acc.1.added mi []) li.index).1 = true
    · simp only [hw, Bool.false_eq_true, if_false, hn, if_true]
    · rw [Bool.not_eq_true] at hn
      simp only [hw, Bool.false_eq_true, if_false, hn]

theorem depositOne_rpKeys (g : Graph) (mi : Nat) (acc : Materializations × NMap (List Index))
    (li : LookupIndex) (hP : rpKeysOk g acc.1 acc.2) :
    rpKeysOk g (depositOne mi acc li).1 (depositOne mi acc li).2 := by
  have hle := (depositOne_matLe mi acc li).1.1
  unfold depositOne at hle ⊢
  by_cases hw : li.isWeak = true
  · by_cases hn : (idxInsNew (mgetD acc.1.added mi []) li.index).1 = true
    · simp only [hw, if_true, hn] at hle ⊢
      intro k hk
      rcases mem_mkeys_mset_cases hk with h2 | h2
      · subst h2; exact Or.inl (mcontains_mset_self _ _ _)
      · rcases hP k h2 with h3 | h3
        · exact Or.inl (hle k h3)
        · exact Or.inr h3
    · rw [Bool.not_eq_true] at hn
      simp only [hw, if_true, hn, Bool.false_eq_true, if_false] at hle ⊢
      intro k hk
      rcases hP k hk with h3 | h3
      · exact Or.inl (hle k h3)
      · exact Or.inr h3
  · rw [Bool.not_eq_true] at hw
    by_cases hn : (idxInsNew (mgetD acc.1.added mi []) li.index).1 = true
    · simp only [hw, Bool.false_eq_true, if_false, hn, if_true] at hle ⊢
      intro k hk
      rcases mem_mkeys_mset_cases hk with h2 | h2
      · subst h2; exact Or.inl (mcontains_mset_self _ _ _)
      · rcases hP k h2 with h3 | h3
        · exact Or.inl (hle k h3)
        · exact Or.inr h3
    · rw [Bool.not_eq_true] at hn
      simp only [hw, Bool.false_eq_true, if_false, hn] at hle ⊢
      intro k hk
      rcases hP k hk with h3 | h3
      · exact Or.inl (hle k h3)
      · exact Or.inr h3

theorem depositOne_c1 (g : Graph) (mi : Nat) (acc : Materializations × NMap (List Index))
    (li : LookupIndex)
    (hP : partialInHaveOrReader g acc.1 ∧ partialNotBase g acc.1 ∧ rpKeysOk g acc.1 acc.2) :
    partialInHaveOrReader g (depositOne mi acc li).1
    ∧ partialNotBase g (depositOne mi acc li).1
    ∧ rpKeysOk g (depositOne mi acc li).1 (depositOne mi acc li).2 := by
  have hle := (depositOne_matLe mi acc li).1.1
  have hpe := depositOne_partial_eq mi acc li
  refine ⟨pinv_transport hP.1 hle (fun n hn => hpe ▸ hn), ?_, depositOne_rpKeys g mi acc li hP.2.2⟩
  exact pnb_transport hP.2.1 (fun n hn => hpe ▸ hn)

theorem depositLookups_c1 (g : Graph) (mi : Nat) :
    ∀ (il : List LookupIndex) (acc : Materializations × NMap (List Index)),
    partialInHaveOrReader g acc.1 ∧ partialNotBase g acc.1 ∧ rpKeysOk g acc.1 acc.2 →
    partialInHaveOrReader g (depositLookups acc mi il).1
    ∧ partialNotBase g (depositLookups acc mi il).1
    ∧ rpKeysOk g (depositLookups acc mi il).1 (depositLookups acc mi il).2 := by
  intro il
  induction il with
  | nil => intro acc h; exact h
  | cons li rest ih =>
    intro acc h
    exact ih (depositOne mi acc li) (depositOne_c1 g mi acc li h)

theorem hoistAll_c1 (g : Graph) (lk : NMap (List LookupIndex))
    (acc r : Materializations × NMap (List Index)) (h : hoistAll g lk acc = .ok r)
    (hP : partialInHaveOrReader g acc.1 ∧ partialNotBase g acc.1 ∧ rpKeysOk g acc.1 acc.2) :
    partialInHaveOrReader g r.1 ∧ partialNotBase g r.1 ∧ rpKeysOk g r.1 r.2 := by
  refine foldE_inv (fun (x : Materializations × NMap (List Index)) =>
    partialInHaveOrReader g x.1 ∧ partialNotBase g x.1 ∧ rpKeysOk g x.1 x.2) _ ?_ lk acc r hP h
  intro b a rr hb hs
  unfold hoistAll at hs
  cases hw : hoistWalk g b.1.haveIdx (a.1 + 1) a.1 a.2 with
  | error e => rw [hw] at hs; cases hs
  | ok res =>
    rw [hw] at hs
    injection hs with hs2
    subst hs2
    exact depositLookups_c1 g res.1 res.2 b hb

/-- Claim C1 counterexample: the base+reader migration commits successfully
and leaves reader 2 in `partial` while 2 is not a key of `have` — `partial`
is not a subset of `have.keys()`. -/
theorem c1_counterexample :
    c1Commit.isOk = true
    ∧ 2 ∈ (getOk c1Commit).partialNodes
    ∧ mcontains (getOk c1Commit).haveIdx 2 = false := by
  refine ⟨by decide, by decide, by decide⟩

/-- Claim C1 (amended): after every successful `extend`+`commit` from a
state satisfying the invariant, every node in `partial` is a key of `have`
or a keyed reader, and no node in `partial` is a base table. -/
theorem c1_amended (oracle : PathOracle) (g : Graph) (new : List Nat)
    (isRecovery : Bool) (s s₁ s₂ : Materializations) (g' : Graph)
    (hP1 : partialInHaveOrReader g s) (hP2 : partialNotBase g s)
    (hx : extend oracle g new isRecovery s = .ok (s₁, g'))
    (hc : commit oracle g' new s₁ = .ok s₂) :
    partialInHaveOrReader g s₂ ∧ partialNotBase g s₂ := by
  have hext : partialInHaveOrReader g s₁ ∧ partialNotBase g s₁ := by
    simp only [extend] at hx
    cases h1 : hoistAll g (collectObligations g new s).2.1
        ((collectObligations g new s).1, (collectObligations g new s).2.2) with
    | error e => rw [h1] at hx; cases hx
    | ok acc =>
      rw [h1] at hx
      simp only [] at hx
      cases h2 : partialityPass g new isRecovery oracle acc.1 acc.2 with
      | error e => rw [h2] at hx; cases hx
      | ok acc2 =>
        rw [h2] at hx
        simp only [] at hx
        have hc0 : partialInHaveOrReader g (collectObligations g new s).1
            ∧ partialNotBase g (collectObligations g new s).1
            ∧ rpKeysOk g (collectObligations g new s).1 (collectObligations g new s).2.2 := by
          unfold collectObligations
          have hpe := collectLoop_partial_eq g new (s, [], [])
          have hh := (collectLoop_core g new (s, [], [])).1
          refine ⟨?_, pnb_transport hP2 (fun n hn => hpe ▸ hn), ?_⟩
          · refine pinv_transport hP1 ?_ (fun n hn => hpe ▸ hn)
            intro k hk
            rw [hh]
            exact hk
          · refine collectLoop_rpKeys g new (s, [], []) ?_
            intro k hk
            simp only [mkeys, List.map_nil] at hk
            cases hk
        have hc1 := hoistAll_c1 g _ _ acc h1 hc0
        have hc2 : partialInHaveOrReader g acc2.1 ∧ partialNotBase g acc2.1
            ∧ rpKeysOk g acc2.1 acc2.2 := by
          refine foldE_inv (fun (x : Materializations × NMap (List Index)) =>
            partialInHaveOrReader g x.1 ∧ partialNotBase g x.1 ∧ rpKeysOk g x.1 x.2)
            _ ?_ _ (acc.1, acc.2) acc2 hc1 h2
          intro b a rr hb hs
          exact passStep_c1 g new isRecovery oracle b rr a hs hb
        split at hx
        · cases hx
        · cases h3 : foldE (purgeMoveStep acc2.1 new) new (frontierLoop acc2.1 new g) with
          | error e => rw [h3] at hx; cases hx
          | ok g3 =>
            rw [h3] at hx
            simp only [] at hx
            injection hx with h4
            have h5 : acc2.1 = s₁ := congrArg Prod.fst h4
            rw [← h5]
            exact ⟨hc2.1, hc2.2.1⟩
  have hcc := commit_core oracle g' new s₁ s₂ hc
  refine ⟨?_, ?_⟩
  · refine pinv_transport hext.1 ?_ ?_
    · intro k hk; rw [hcc.1]; exact hk
    · intro n hn; rw [hcc.2.2.1] at hn; exact hn
  · exact pnb_transport hext.2 (fun n hn => by rw [hcc.2.2.1] at hn; exact hn)

/-- Claim C1 witness: the amended invariant holds for the concrete
base+reader migration. -/
theorem c1_witness :
    partialInHaveOrReader g1 (getOk c1Commit) ∧ partialNotBase g1 (getOk c1Commit) :=
  c1_amended oracle1 g1 new1 false initMaterializations (getOkE c1Extend).1
    (getOk c1Commit) (getOkE c1Extend).2
    (fun n hn => absurd hn (List.not_mem_nil n))
    (fun n hn => absurd hn (List.not_mem_nil n))
    (by decide) (by decide)

theorem dropLast_append_getLastD {α : Type} : ∀ (l : List α) (d : α), l ≠ [] →
    l.dropLast ++ [l.getLastD d] = l := by
  intro l
  induction l with
  | nil => intro d h; exact absurd rfl h
  | cons a t ih =>
    intro d _
    cases t with
    | nil => rfl
    | cons b t2 =>
      have h2 := ih b (by simp)
      rw [List.getLastD_cons] at h2
      simp only [List.dropLast_cons₂, List.getLastD_cons, List.cons_append]
      rw [h2]

theorem tail_reverse_eq {α : Type} (l : List α) (d : α) (h : l ≠ []) :
    l.reverse.tail = l.dropLast.reverse := by
  conv => lhs; rw [← dropLast_append_getLastD l d h]
  rw [List.reverse_append]
  rfl

theorem mem_enumFrom_snd {α : Type} : ∀ (l : List α) (n : Nat) (it : Nat × α),
    it ∈ List.enumFrom n l → it.2 ∈ l := by
  intro l
  induction l with
  | nil => intro n it h; cases h
  | cons a t ih =>
    intro n it h
    simp only [List.enumFrom, List.mem_cons] at h
    rcases h with h | h
    · subst h; exact List.mem_cons_self a t
    · exact List.mem_cons_of_mem a (ih (n + 1) it h)

theorem mem_drop_one_enum {α : Type} : ∀ (l : List α) (it : Nat × α),
    it ∈ (List.enum l).drop 1 → it.2 ∈ l.tail := by
  intro l it h
  cases l with
  | nil => cases h
  | cons a t =>
    have h2 : (List.enum (a :: t)).drop 1 = List.enumFrom 1 t := by
      simp [List.enum, List.enumFrom]
    rw [h2] at h
    exact mem_enumFrom_snd t 1 it h

theorem mget_isSome_of_mem_mkeys {α : Type} {m : NMap α} {k : Nat}
    (h : k ∈ mkeys m) : (mget m k).isSome = true := by
  simp only [mkeys, List.mem_map] at h
  obtain ⟨p, hp, hpk⟩ := h
  simp only [mget, Option.isSome_map']
  rw [List.find?_isSome]
  exact ⟨p, hp, by simp [hpk]⟩

theorem walkSegs_addNodes (Q : Nat → Prop) (plen : Nat) (isBroken : Bool) :
    ∀ (items : List (Nat × IndexRef)) (st : PassAcc),
    (∀ it ∈ items, Q it.2.node) → (∀ k, k ∈ mkeys st.add → Q k) →
    ∀ k, k ∈ mkeys (walkSegs plen isBroken items st).add → Q k := by
  intro items
  induction items with
  | nil => intro st _ hst; exact hst
  | cons item rest ih =>
    intro st hit hst
    simp only [walkSegs]
    cases item.2.index with
    | none => exact hst
    | some index =>
      cases hm : mget st.haveIdx item.2.node with
      | some m =>
        by_cases hmem : index ∈ m
        · simp only [hmem, if_true]; exact hst
        · simp only [hmem, if_false]
          intro k hk
          rcases mem_mkeys_mset_cases hk with h2 | h2
          · exact h2 ▸ hit item (List.mem_cons_self item rest)
          · exact hst k h2
      | none =>
        by_cases hb : (item.1 == plen - 1 && isBroken) = true
        · simp only [hb, if_true]
          refine ih _ (fun it hi => hit it (List.mem_cons_of_mem item hi)) ?_
          intro k hk
          rcases mem_mkeys_mset_cases hk with h2 | h2
          · exact h2 ▸ hit item (List.mem_cons_self item rest)
          · exact hst k h2
        · rw [Bool.not_eq_true] at hb
          simp only [hb, Bool.false_eq_true, if_false]
          exact ih st (fun it hi => hit it (List.mem_cons_of_mem item hi)) hst

theorem walkPaths_addNodes (Q : Nat → Prop) (ni : Nat) :
    ∀ (ps : List RawReplayPath) (st : PassAcc),
    (∀ p ∈ ps, ∀ it ∈ (p.segments.reverse.enum.drop (if p.target.node == ni then 1 else 0)),
      Q it.2.node) →
    (∀ k, k ∈ mkeys st.add → Q k) →
    ∀ k, k ∈ mkeys (walkPaths ni ps st).add → Q k := by
  intro ps
  induction ps with
  | nil => intro st _ hst; exact hst
  | cons p rest ih =>
    intro st hps hst
    simp only [walkPaths]
    by_cases hs : st.stopAll = true
    · simp only [hs, if_true]; exact hst
    · rw [Bool.not_eq_true] at hs
      simp only [hs, Bool.false_eq_true, if_false]
      refine ih _ (fun q hq => hps q (List.mem_cons_of_mem p hq)) ?_
      exact walkSegs_addNodes Q _ _ _ st (hps p (List.mem_cons_self p rest)) hst

theorem gatherPaths_mem (oracle : PathOracle) (g : Graph) (ni : Nat) :
    ∀ (il : List Index) (p : RawReplayPath), p ∈ gatherPaths oracle g ni il →
    ∃ i ∈ il, p ∈ oracle g ni i.columns i.index_type := by
  intro il
  induction il with
  | nil => intro p h; cases h
  | cons index rest ih =>
    intro p h
    simp only [gatherPaths] at h
    rcases List.mem_append.mp h with h2 | h2
    · exact ⟨index, List.mem_cons_self index rest, h2⟩
    · obtain ⟨i, hi, hp⟩ := ih p h2
      exact ⟨i, List.mem_cons_of_mem index hi, hp⟩

theorem pathItems_bound (g : Graph) (ni : Nat) (p : RawReplayPath)
    (H1 : ∀ r ∈ p.segments.dropLast, r.node < ni ∧ r.node ∈ orderedNodes g)
    (H2 : p.target.node = ni ∨ (p.target.node < ni ∧ p.target.node ∈ orderedNodes g)) :
    ∀ it ∈ (p.segments.reverse.enum.drop (if p.target.node == ni then 1 else 0)),
      it.2.node < ni ∧ it.2.node ∈ orderedNodes g := by
  intro it hit
  by_cases hni : (p.target.node == ni) = true
  · rw [if_pos hni] at hit
    have h2 : it.2 ∈ p.segments.reverse.tail := mem_drop_one_enum p.segments.reverse it hit
    cases hsegs : p.segments with
    | nil => rw [hsegs] at h2; cases h2
    | cons a t =>
      rw [tail_reverse_eq p.segments ⟨0, none⟩ (by rw [hsegs]; simp)] at h2
      exact H1 it.2 (List.mem_reverse.mp h2)
  · rw [if_neg hni] at hit
    rw [Bool.not_eq_true, beq_eq_false_iff_ne] at hni
    rw [List.drop_zero] at hit
    have h2 : it.2 ∈ p.segments.reverse :=
      mem_enumFrom_snd p.segments.reverse 0 it hit
    have h3 : it.2 ∈ p.segments := List.mem_reverse.mp h2
    cases hsegs : p.segments with
    | nil => rw [hsegs] at h3; cases h3
    | cons a t =>
      rw [← dropLast_append_getLastD p.segments ⟨0, none⟩ (by rw [hsegs]; simp)] at h3
      rcases List.mem_append.mp h3 with h4 | h4
      · exact H1 it.2 h4
      · have h5 : it.2 = p.target := List.mem_singleton.mp h4
        rcases H2 with h6 | h6
        · exact absurd h6 (h5 ▸ hni)
        · exact h5 ▸ h6

theorem passStep_keys (g : Graph) (new : List Nat) (isRecovery : Bool) (oracle : PathOracle)
    (acc r : Materializations × NMap (List Index)) (ni : Nat)
    (horacle : ∀ cols ty, ∀ p ∈ oracle g ni cols ty,
      (∀ sref ∈ p.segments.dropLast, sref.node < ni ∧ sref.node ∈ orderedNodes g)
      ∧ (p.target.node = ni ∨ (p.target.node < ni ∧ p.target.node ∈ orderedNodes g)))
    (h : passStep g new isRecovery oracle acc ni = .ok r) :
    ∀ k, k ∈ mkeys r.2 → (k ∈ mkeys acc.2 ∧ k ≠ ni) ∨ (k < ni ∧ k ∈ orderedNodes g) := by
  simp only [passStep] at h
  cases hm : mget acc.2 ni with
  | none =>
    rw [hm] at h
    injection h with h2
    subst h2
    intro k hk
    refine Or.inl ⟨hk, ?_⟩
    intro hkni
    subst hkni
    have h3 := mget_isSome_of_mem_mkeys hk
    rw [hm] at h3
    simp at h3
  | some indexes =>
    rw [hm] at h
    simp only [] at h
    set PS := (gatherPaths oracle g ni indexes).filter (fun p => p.broken) ++
        (gatherPaths oracle g ni indexes).filter (fun p => !p.broken) with hPS
    set st0 : PassAcc := ({ able := ableInit g new acc.1 ni, stopAll := false, add := [], haveIdx := acc.1.haveIdx } : PassAcc) with hst0
    have hadd : ∀ k, k ∈ mkeys (walkPaths ni PS st0).add →
        k < ni ∧ k ∈ orderedNodes g := by
      refine walkPaths_addNodes _ ni PS st0 ?_ ?_
      · intro p hp
        have hp2 : p ∈ gatherPaths oracle g ni indexes := by
          rcases List.mem_append.mp hp with h2 | h2 <;> exact List.mem_of_mem_filter h2
        obtain ⟨i, hi, hpo⟩ := gatherPaths_mem oracle g ni indexes p hp2
        have ho := horacle i.columns i.index_type p hpo
        exact pathItems_bound g ni p ho.1 ho.2
      · intro k hk
        simp only [mkeys, List.map_nil] at hk
        cases hk
    have hrem : ∀ k, k ∈ mkeys (mremove acc.2 ni) → (k ∈ mkeys acc.2 ∧ k ≠ ni) := by
      intro k hk
      refine ⟨mem_mkeys_mremove hk, ?_⟩
      intro hkni
      subst hkni
      have h2 := mget_isSome_of_mem_mkeys hk
      rw [mget_mremove_self] at h2
      simp at h2
    split at h
    · injection h with h2
      subst h2
      intro k hk
      refine addFold_keys
        (fun k => (k ∈ mkeys acc.2 ∧ k ≠ ni) ∨ (k < ni ∧ k ∈ orderedNodes g)) _ _ ?_ ?_ k hk
      · intro p hp
        exact Or.inr (hadd p.1 (List.mem_map.mpr ⟨p, hp, rfl⟩))
      · intro k2 hk2
        exact Or.inl (hrem k2 hk2)
    · split at h
      · cases h
      · split at h
        · cases h
        · injection h with h2
          subst h2
          intro k hk
          exact Or.inl (hrem k hk)

theorem passAux (g : Graph) (new : List Nat) (isRecovery : Bool) (oracle : PathOracle)
    (horacle : ∀ ni cols ty, ∀ p ∈ oracle g ni cols ty,
      (∀ sref ∈ p.segments.dropLast, sref.node < ni ∧ sref.node ∈ orderedNodes g)
      ∧ (p.target.node = ni ∨ (p.target.node < ni ∧ p.target.node ∈ orderedNodes g))) :
    ∀ (l : List Nat), List.Pairwise (fun a b => b < a) l →
    (∀ x ∈ l, ∀ m, m ∈ orderedNodes g → m < x → m ∈ l) →
    ∀ (acc r : Materializations × NMap (List Index)),
    (∀ k, k ∈ mkeys acc.2 → k ∈ l) →
    foldE (passStep g new isRecovery oracle) l acc = .ok r → r.2 = [] := by
  intro l
  induction l with
  | nil =>
    intro _ _ acc r hkeys h
    simp only [foldE] at h
    cases h
    cases hrp : acc.2 with
    | nil => rfl
    | cons p t =>
      have : p.1 ∈ mkeys acc.2 := by
        rw [hrp]
        simp [mkeys]
      exact absurd (hkeys p.1 this) (List.not_mem_nil p.1)
  | cons ni rest ih =>
    intro hpair hsub acc r hkeys h
    simp only [foldE] at h
    cases hstep : passStep g new isRecovery oracle acc ni with
    | error e => rw [hstep] at h; cases h
    | ok acc1 =>
      rw [hstep] at h
      have hk1 := passStep_keys g new isRecovery oracle acc acc1 ni (horacle ni) hstep
      have hhead : ∀ b ∈ rest, b < ni := (List.pairwise_cons.mp hpair).1
      refine ih (List.pairwise_cons.mp hpair).2 ?_ acc1 r ?_ h
      · intro x hx m hmo hmx
        rcases List.mem_cons.mp (hsub x (List.mem_cons_of_mem ni hx) m hmo hmx) with h2 | h2
        · subst h2
          exact absurd (Nat.lt_trans hmx (hhead x hx)) (Nat.lt_irrefl m)
        · exact h2
      · intro k hk
        rcases hk1 k hk with ⟨hmem, hne⟩ | ⟨hlt, hord⟩
        · rcases List.mem_cons.mp (hkeys k hmem) with h2 | h2
          · exact absurd h2 hne
          · exact h2
        · rcases List.mem_cons.mp
              (hsub ni (List.mem_cons_self ni rest) k hord hlt) with h2 | h2
          · subst h2
            exact absurd hlt (Nat.lt_irrefl k)
          · exact h2

/-- Claim C4: the reverse-topological pass drains the replay-obligation
table — if every initial obligation is keyed on a non-source, non-dropped
node, and the path enumerator only produces segments strictly above the
queried node (in the reverse topological order), a successful pass ends with
an empty `replay_obligations` table, so the final `assert!` in `extend`
never fails. -/
theorem c4_pass_drains (g : Graph) (new : List Nat) (isRecovery : Bool)
    (oracle : PathOracle) (s : Materializations) (rp : NMap (List Index))
    (s' : Materializations) (rp' : NMap (List Index))
    (hkeys : ∀ k ∈ mkeys rp, k ∈ orderedNodes g)
    (horacle : ∀ ni cols ty, ∀ p ∈ oracle g ni cols ty,
      (∀ sref ∈ p.segments.dropLast, sref.node < ni ∧ sref.node ∈ orderedNodes g)
      ∧ (p.target.node = ni ∨ (p.target.node < ni ∧ p.target.node ∈ orderedNodes g)))
    (h : partialityPass g new isRecovery oracle s rp = .ok (s', rp')) : rp' = [] := by
  have hpair : List.Pairwise (fun a b => b < a) (orderedNodes g) := by
    unfold orderedNodes
    rw [List.pairwise_reverse]
    exact List.Pairwise.filter _ (List.pairwise_lt_range _)
  exact passAux g new isRecovery oracle horacle (orderedNodes g) hpair
    (fun x _ m hmo _ => hmo) (s, rp) (s', rp') hkeys h

theorem mem_parentsBelow {g : Graph} {pi v : Nat} (h : pi ∈ parentsBelow g v) :
    (pi, v) ∈ g.edges ∧ pi < v := by
  unfold parentsBelow at h
  obtain ⟨e, he, heq⟩ := List.mem_map.mp h
  obtain ⟨a, b⟩ := e
  have h2 := List.mem_filter.mp he
  simp only [Bool.and_eq_true, beq_iff_eq, decide_eq_true_eq] at h2
  obtain ⟨hmem, hb, hlt⟩ := h2
  simp only [] at heq hb hlt
  subst heq
  subst hb
  exact ⟨hmem, hlt⟩

theorem parentsBelow_mem {g : Graph} {b v : Nat} (he : (b, v) ∈ g.edges) (hlt : b < v) :
    b ∈ parentsBelow g v := by
  unfold parentsBelow
  refine List.mem_map.mpr ⟨(b, v), List.mem_filter.mpr ⟨he, ?_⟩, rfl⟩
  simp [hlt]

theorem ReachD.last {g : Graph} {a v : Nat} (h : ReachD g a v) :
    a = v ∨ ∃ b, ReachD g a b ∧ (b, v) ∈ g.edges := by
  induction h with
  | refl w => exact Or.inl rfl
  | step hab hbc ih =>
    rcases ih with h2 | ⟨d, hd1, hd2⟩
    · subst h2
      exact Or.inr ⟨_, ReachD.refl _, hab⟩
    · exact Or.inr ⟨d, ReachD.step hab hd1, hd2⟩

theorem ReachD.snoc {g : Graph} {a b c : Nat} (h : ReachD g a b) :
    (b, c) ∈ g.edges → ReachD g a c := by
  induction h with
  | refl w => intro he; exact ReachD.step he (ReachD.refl c)
  | step hab hbc ih => intro he; exact ReachD.step hab (ih he)

theorem findPartialAbove_sound (s : Materializations) (g : Graph) :
    ∀ fuel v p oc, findPartialAbove s g fuel v = (some p, oc) →
    (oc = none → p = v ∧ v ∈ s.partialNodes) ∧
    (∀ c, oc = some c → p ∈ s.partialNodes ∧ c ∉ s.partialNodes ∧
      (p, c) ∈ g.edges ∧ ReachD g c v) := by
  intro fuel
  induction fuel with
  | zero =>
    intro v p oc h
    simp only [findPartialAbove, Prod.mk.injEq] at h
    exact Option.noConfusion h.1
  | succ fuel ih =>
    intro v p oc h
    simp only [findPartialAbove] at h
    by_cases hv : v ∈ s.partialNodes
    · rw [if_pos hv, Prod.mk.injEq] at h
      obtain ⟨h1, h2⟩ := h
      injection h1 with h1
      constructor
      · intro _
        exact ⟨h1.symm, hv⟩
      · intro c hc
        rw [← h2] at hc
        exact Option.noConfusion hc
    · rw [if_neg hv] at h
      cases hfind : ((parentsBelow g v).map
          (fun pi => (pi, findPartialAbove s g fuel pi))).find? (fun r => r.2.1.isSome) with
      | none =>
        rw [hfind] at h
        simp only [Prod.mk.injEq] at h
        exact Option.noConfusion h.1
      | some x =>
        obtain ⟨pi, r1, r2⟩ := x
        have hpred := List.find?_some hfind
        simp only [] at hpred
        obtain ⟨p', hp'⟩ := Option.isSome_iff_exists.mp hpred
        subst hp'
        have hmemf := List.mem_of_find?_eq_some hfind
        obtain ⟨pi', hpimem, heq⟩ := List.mem_map.mp hmemf
        rw [Prod.mk.injEq] at heq
        obtain ⟨heq1, heq2⟩ := heq
        subst heq1
        have hedge := mem_parentsBelow hpimem
        rw [hfind] at h
        cases r2 with
        | some c' =>
          simp only [] at h
          rw [Prod.mk.injEq] at h
          obtain ⟨h1, h2⟩ := h
          injection h1 with h1
          subst h1
          have hS := (ih pi' p' (some c') heq2).2 c' rfl
          constructor
          · intro hoc
            rw [← h2] at hoc
            exact Option.noConfusion hoc
          · intro c hc
            rw [← h2] at hc
            injection hc with hc
            subst hc
            exact ⟨hS.1, hS.2.1, hS.2.2.1, ReachD.snoc hS.2.2.2 hedge.1⟩
        | none =>
          simp only [] at h
          rw [Prod.mk.injEq] at h
          obtain ⟨h1, h2⟩ := h
          injection h1 with h1
          subst h1
          have hN := (ih pi' p' none heq2).1 rfl
          constructor
          · intro hoc
            rw [← h2] at hoc
            exact Option.noConfusion hoc
          · intro c hc
            rw [← h2] at hc
            injection hc with hc
            subst hc
            refine ⟨hN.1 ▸ hN.2, hv, ?_, ReachD.refl v⟩
            rw [hN.1]
            exact hedge.1

theorem findPartialAbove_complete (s : Materializations) (g : Graph) (hwf : g.wf) :
    ∀ fuel v, v < fuel → (∃ a ∈ s.partialNodes, ReachD g a v) →
    ((findPartialAbove s g fuel v).1).isSome = true := by
  intro fuel
  induction fuel with
  | zero =>
    intro v hlt _
    exact absurd hlt (Nat.not_lt_zero v)
  | succ fuel ih =>
    intro v hlt hex
    obtain ⟨a, ha, hrd⟩ := hex
    by_cases hv : v ∈ s.partialNodes
    · simp only [findPartialAbove, if_pos hv]
      rfl
    · rcases ReachD.last hrd with h1 | ⟨b, hab, hbv⟩
      · exact absurd (h1 ▸ ha) hv
      · have hblt : b < v := (hwf _ hbv).1
        have hbmem : b ∈ parentsBelow g v := parentsBelow_mem hbv hblt
        have hrec := ih b (Nat.lt_of_lt_of_le hblt (Nat.le_of_lt_succ hlt)) ⟨a, ha, hab⟩
        have hfind : (((parentsBelow g v).map
            (fun pi => (pi, findPartialAbove s g fuel pi))).find?
            (fun r => r.2.1.isSome)).isSome = true := by
          rw [List.find?_isSome]
          exact ⟨(b, findPartialAbove s g fuel b), List.mem_map.mpr ⟨b, hbmem, rfl⟩, hrec⟩
        obtain ⟨r, hr⟩ := Option.isSome_iff_exists.mp hfind
        have hpred := List.find?_some hr
        obtain ⟨pi, r1, r2⟩ := r
        simp only [] at hpred
        obtain ⟨p', hp'⟩ := Option.isSome_iff_exists.mp hpred
        subst hp'
        simp only [findPartialAbove]
        rw [if_neg hv, hr]
        cases r2 <;> rfl

theorem validateFirstBlock_complete (s : Materializations) (g : Graph) (hwf : g.wf)
    (hex : ∃ n ∈ mkeys s.added ++ s.new_readers, n ∉ s.partialNodes ∧
      ∃ a ∈ s.partialNodes, ReachD g a n) :
    ∃ e, validateFirstBlock s g = some e := by
  obtain ⟨n, hn, hnp, hanc⟩ := hex
  have hiso := findPartialAbove_complete s g hwf (n + 1) n (Nat.lt_succ_self n) hanc
  cases hres : findPartialAbove s g (n + 1) n with
  | mk o1 o2 =>
    rw [hres] at hiso
    obtain ⟨p, hp⟩ := Option.isSome_iff_exists.mp hiso
    subst hp
    cases o2 with
    | none =>
      have := (findPartialAbove_sound s g (n + 1) n p none hres).1 rfl
      exact absurd this.2 hnp
    | some c =>
      cases hfb : validateFirstBlock s g with
      | some e => exact ⟨e, rfl⟩
      | none =>
        unfold validateFirstBlock at hfb
        have h2 := List.findSome?_eq_none_iff.mp hfb n hn
        rw [hres] at h2
        simp only [] at h2
        exact Option.noConfusion h2

theorem validateFirstBlock_sound (s : Materializations) (g : Graph) (p c : Nat)
    (h : validateFirstBlock s g = some ⟨p, c⟩) :
    p ∈ s.partialNodes ∧ c ∉ s.partialNodes ∧ (p, c) ∈ g.edges ∧
    ∃ n ∈ mkeys s.added ++ s.new_readers, n ∉ s.partialNodes ∧ ReachD g c n := by
  unfold validateFirstBlock at h
  obtain ⟨n, hn, hfn⟩ := List.exists_of_findSome?_eq_some h
  cases hres : findPartialAbove s g (n + 1) n with
  | mk o1 o2 =>
    rw [hres] at hfn
    cases o1 with
    | none =>
      cases o2 <;> simp only [] at hfn <;> exact Option.noConfusion hfn
    | some p' =>
      cases o2 with
      | none =>
        simp only [] at hfn
        exact Option.noConfusion hfn
      | some c' =>
        simp only [] at hfn
        injection hfn with hfn
        injection hfn with hfn1 hfn2
        subst hfn1
        subst hfn2
        have hnp : n ∉ s.partialNodes := by
          intro hnp
          have : findPartialAbove s g (n + 1) n = (some n, none) := by
            simp only [findPartialAbove, if_pos hnp]
          rw [hres] at this
          rw [Prod.mk.injEq] at this
          exact Option.noConfusion this.2
        have hS := (findPartialAbove_sound s g (n + 1) n p' (some c') hres).2 c' rfl
        exact ⟨hS.1, hS.2.1, hS.2.2.1, n, hn, hnp, hS.2.2.2⟩

theorem validate_some (oracle : PathOracle) (prov : ProvOracle) (g : Graph)
    (s : Materializations) (new : List Nat) (e : InvalidEdge)
    (h : validate oracle prov g s new = .ok (some e)) :
    validateFirstBlock s g = some e := by
  unfold validate at h
  cases hfb : validateFirstBlock s g with
  | some e2 =>
    rw [hfb] at h
    simp only [] at h
    injection h with h2
  | none =>
    rw [hfb] at h
    simp only [] at h
    cases ho : overlapCheck oracle g s with
    | error e2 => rw [ho] at h; cases h
    | ok u =>
      rw [ho] at h
      simp only [] at h
      cases hp : purgeCheck s g new with
      | error e2 => rw [hp] at h; cases h
      | ok u2 =>
        rw [hp] at h
        simp only [] at h
        cases hs : foldE (fun _ node => shardStep prov g s node) new () with
        | error e2 => rw [hs] at h; cases h
        | ok u3 =>
          rw [hs] at h
          simp only [] at h
          injection h with h2

/-- Claim C5: under a well-formed (acyclic, topologically numbered) graph,
`validate` returns `some InvalidEdge` whenever some node of
`added.keys() ∪ new_readers` is not partial but has a partial ancestor; and
any returned edge consists of a partial `parent`, its direct non-partial
successor `child`, with `child` an ancestor-or-self of such a node `n`. -/
theorem c5_validate (oracle : PathOracle) (prov : ProvOracle) (g : Graph)
    (s : Materializations) (new : List Nat) (hwf : g.wf) :
    ((∃ n ∈ mkeys s.added ++ s.new_readers, n ∉ s.partialNodes ∧
        ∃ a ∈ s.partialNodes, ReachD g a n) →
      ∃ e, validate oracle prov g s new = .ok (some e)) ∧
    (∀ p c, validate oracle prov g s new = .ok (some ⟨p, c⟩) →
      p ∈ s.partialNodes ∧ c ∉ s.partialNodes ∧ (p, c) ∈ g.edges ∧
      ∃ n ∈ mkeys s.added ++ s.new_readers, n ∉ s.partialNodes ∧ ReachD g c n) := by
  constructor
  · intro hex
    obtain ⟨e, he⟩ := validateFirstBlock_complete s g hwf hex
    refine ⟨e, ?_⟩
    unfold validate
    rw [he]
  · intro p c h
    exact validateFirstBlock_sound s g p c (validate_some oracle prov g s new ⟨p, c⟩ h)

/-- Claim C5 witness: in `gC5` (partial node 0 above the non-partial added
node 1), `validate` reports the invalid edge `(0, 1)`, node 0 is partial,
node 1 is not, and `(0, 1)` is an edge leading down to the added node. -/
theorem c5_witness :
    gC5.wf ∧ validate oracle0 prov0 gC5 sC5 [1] = .ok (some ⟨0, 1⟩) ∧
    (0 ∈ sC5.partialNodes ∧ 1 ∉ sC5.partialNodes ∧ ((0 : Nat), (1 : Nat)) ∈ gC5.edges ∧
      ∃ n ∈ mkeys sC5.added ++ sC5.new_readers, n ∉ sC5.partialNodes ∧ ReachD gC5 1 n) :=
  ⟨by decide, by decide,
    (c5_validate oracle0 prov0 gC5 sC5 [1] (by decide)).2 0 1 (by decide)⟩

/-- Claim C4 witness: a concrete pass over `g1` with obligations on nodes 2
and 1 succeeds and ends with an empty obligation table. -/
theorem c4_witness : (getOkP c4Pass).2 = [] :=
  c4_pass_drains g1 new1 false oracle0 s4 rp4 (getOkP c4Pass).1 (getOkP c4Pass).2
    (by decide)
    (fun ni cols ty p hp => absurd hp (List.not_mem_nil p))
    (by decide)

end Readyset
